import Mathlib

/-!
Verification development for the waddlemap-db storage engine.

This file gives a shallow embedding, in Lean 4, of the parts of the Go
source that the specification claims talk about:

* the entry codec (`internal/storage/entry.go`): `EncodeKeywords`,
  `DecodeKeywords`, `EncodeEntry`, `DecodeEntry`, CRC32/IEEE;
* the shard manager (`internal/storage/storage.go`): `getBucketID`
  (BLAKE3-based shard routing), `Append`, `GetLength`;
* the forward index (`ForwardIndex`): `Add`, `Delete`, `Count`,
  `GetNextVectorID`;
* the collection (`Collection`): `AppendBlock`, `DeleteKey`, `Count`,
  `ContainsKey`, `GetBlockVectorID`, plus the repair pass orphan count;
* the vector manager (`VectorManager`): `AppendBlock`, `DeleteKey`,
  `GetBlock`;
* the HNSW index: the binary `vectors.hnsw` save format and the `Load`
  header validation, and the `Search`/`searchLayer` candidate algorithm.

Modelling conventions:
* Go byte strings and byte slices are `List Nat` with entries < 256
  (serializers only emit values < 256 by construction);
* `uint16`/`uint32`/`uint64` are `Nat` with an explicit `% 2 ^ w`
  wherever the Go code can wrap;
* Go maps are association lists (`List (k × v)`); map iteration in the
  source is only used for order-insensitive folds (max, counting), which
  the list folds reproduce;
* `float32` values appear in two roles and are embedded accordingly:
  as raw 32-bit patterns (`Nat` < 2 ^ 32) where they are only serialized
  (the HNSW binary format), and as exact rationals (`Rat`) where only
  the comparison order matters (the HNSW search layer), with the
  distance function passed explicitly so every statement holds for any
  distance semantics, including the float32 one;
* fallible Go functions return `Except String`.
-/

namespace Waddle

/-! ## Byte-level primitives (encoding/binary) -/

/-- Big-endian 2-byte encoding of the low 16 bits, as `binary.BigEndian.PutUint16`. -/
def u16BE (n : Nat) : List Nat :=
  [n / 2 ^ 8 % 256, n % 256]

/-- Big-endian 4-byte encoding of the low 32 bits, as `binary.BigEndian.PutUint32`. -/
def u32BE (n : Nat) : List Nat :=
  [n / 2 ^ 24 % 256, n / 2 ^ 16 % 256, n / 2 ^ 8 % 256, n % 256]

/-- Big-endian 8-byte encoding of the low 64 bits, as `binary.BigEndian.PutUint64`. -/
def u64BE (n : Nat) : List Nat :=
  [n / 2 ^ 56 % 256, n / 2 ^ 48 % 256, n / 2 ^ 40 % 256, n / 2 ^ 32 % 256,
   n / 2 ^ 24 % 256, n / 2 ^ 16 % 256, n / 2 ^ 8 % 256, n % 256]

/-- Little-endian 2-byte encoding, as `binary.LittleEndian.PutUint16`. -/
def u16LE (n : Nat) : List Nat :=
  [n % 256, n / 2 ^ 8 % 256]

/-- Little-endian 4-byte encoding, as `binary.LittleEndian.PutUint32`. -/
def u32LE (n : Nat) : List Nat :=
  [n % 256, n / 2 ^ 8 % 256, n / 2 ^ 16 % 256, n / 2 ^ 24 % 256]

/-- Little-endian 8-byte encoding, as `binary.LittleEndian.PutUint64`. -/
def u64LE (n : Nat) : List Nat :=
  [n % 256, n / 2 ^ 8 % 256, n / 2 ^ 16 % 256, n / 2 ^ 24 % 256,
   n / 2 ^ 32 % 256, n / 2 ^ 40 % 256, n / 2 ^ 48 % 256, n / 2 ^ 56 % 256]

/-- Big-endian 2-byte read, as `binary.BigEndian.Uint16`. -/
def readU16BE (b0 b1 : Nat) : Nat := b0 * 2 ^ 8 + b1

/-- Big-endian 4-byte read, as `binary.BigEndian.Uint32`. -/
def readU32BE (bs : List Nat) : Nat :=
  bs.getD 0 0 * 2 ^ 24 + bs.getD 1 0 * 2 ^ 16 + bs.getD 2 0 * 2 ^ 8 + bs.getD 3 0

/-- Big-endian 8-byte read, as `binary.BigEndian.Uint64`. -/
def readU64BE (bs : List Nat) : Nat :=
  bs.getD 0 0 * 2 ^ 56 + bs.getD 1 0 * 2 ^ 48 + bs.getD 2 0 * 2 ^ 40 + bs.getD 3 0 * 2 ^ 32 +
  bs.getD 4 0 * 2 ^ 24 + bs.getD 5 0 * 2 ^ 16 + bs.getD 6 0 * 2 ^ 8 + bs.getD 7 0

/-- Little-endian 4-byte read, as `binary.LittleEndian.Uint32`. -/
def readU32LE (bs : List Nat) : Nat :=
  bs.getD 0 0 + bs.getD 1 0 * 2 ^ 8 + bs.getD 2 0 * 2 ^ 16 + bs.getD 3 0 * 2 ^ 24

/-- Little-endian 8-byte read, as `binary.LittleEndian.Uint64`. -/
def readU64LE (bs : List Nat) : Nat :=
  bs.getD 0 0 + bs.getD 1 0 * 2 ^ 8 + bs.getD 2 0 * 2 ^ 16 + bs.getD 3 0 * 2 ^ 24 +
  bs.getD 4 0 * 2 ^ 32 + bs.getD 5 0 * 2 ^ 40 + bs.getD 6 0 * 2 ^ 48 + bs.getD 7 0 * 2 ^ 56

/-! ## CRC32 (hash/crc32, IEEE polynomial)

Go's `crc32.ChecksumIEEE` is the reflected CRC-32 with polynomial
`0xEDB88320`: start from `0xFFFFFFFF`, xor in each byte, shift out the
eight bits against the polynomial, and complement at the end. -/

/-- Shift one bit out of the running CRC remainder. -/
def crc32Shift (c : Nat) : Nat :=
  if c % 2 = 1 then (c / 2) ^^^ 0xEDB88320 else c / 2

/-- Fold one input byte into the running CRC remainder. -/
def crc32Update (crc b : Nat) : Nat :=
  (crc32Shift ∘ crc32Shift ∘ crc32Shift ∘ crc32Shift ∘
   crc32Shift ∘ crc32Shift ∘ crc32Shift ∘ crc32Shift) (crc ^^^ b % 256)

/-- CRC-32/IEEE of a byte sequence, as `crc32.ChecksumIEEE`. -/
def crc32IEEE (data : List Nat) : Nat :=
  (data.foldl crc32Update 0xFFFFFFFF) ^^^ 0xFFFFFFFF

/-! ## Entry codec (`internal/storage/entry.go`, `internal/types/vector_types.go`)

Go strings are byte sequences; keys and keywords are embedded as
`List Nat`. `strings.ToLower` is embedded byte-wise on the ASCII range,
which coincides with the Go rune-wise lowering on all ASCII input (the
only input the keyword shape rule `^[a-z0-9_-]+$` can accept, up to
exotic non-ASCII runes whose lowercase form is ASCII; the round-trip
theorem below is stated for ASCII keywords where the embedding is
exact). -/

/-- Entry header flags (`types.EntryFlags`): bits 0-2 data type, bit 3
compressed, bit 4 tombstone. -/
structure EntryFlags where
  dataType : Nat
  compressed : Bool
  tombstone : Bool
deriving DecidableEq

/-- Flag byte from `types.EncodeFlags`: data type masked to bits 0-2,
bit 3 compressed, bit 4 tombstone. -/
def encodeFlags (f : EntryFlags) : Nat :=
  f.dataType % 8 + (if f.compressed then 8 else 0) + (if f.tombstone then 16 else 0)

/-- Flag byte parsing from `types.ParseFlags`: `flags & 0b111`,
`flags & 0b1000`, `flags & 0b10000`. -/
def parseFlags (b : Nat) : EntryFlags :=
  { dataType := b % 8, compressed := b / 8 % 2 = 1, tombstone := b / 16 % 2 = 1 }

/-- Complete database entry (`storage.Entry`). -/
structure Entry where
  flags : EntryFlags
  key : List Nat
  keywords : List (List Nat)
  primaryData : List Nat
  secondaryData : List Nat
deriving DecidableEq

/-- Byte-wise ASCII lowercase, matching `strings.ToLower` on ASCII bytes. -/
def byteToLower (b : Nat) : Nat :=
  if 65 ≤ b ∧ b ≤ 90 then b + 32 else b

/-- Keyword normalization (`NormalizeKeyword`): lowercase for storage. -/
def normalizeKeyword (kw : List Nat) : List Nat :=
  kw.map byteToLower

/-- Allowed keyword bytes after normalization: `a-z`, `0-9`, `_`, `-`
(the character class of the `keywordRegex`). -/
def isAllowedKeywordByte (b : Nat) : Bool :=
  (97 ≤ b && b ≤ 122) || (48 ≤ b && b ≤ 57) || b = 95 || b = 45

/-- Keyword validation (`ValidateKeyword`): non-empty, at most
`MaxKeywordLength = 128` bytes, and every byte in the allowed class
(which subsumes the UTF-8 validity check on the ASCII range). -/
def validKeyword (kw : List Nat) : Bool :=
  !kw.isEmpty && kw.length ≤ 128 && kw.all isAllowedKeywordByte

/-- Keyword block serialization (`EncodeKeywords`):
`[count: u16 BE] ([len: u8][bytes]) x count`, each keyword normalized and
validated, keyword at most 255 bytes, whole block at most
`MaxKeywordsBlockSize = 65535` bytes. -/
def encodeKeywordStep (acc : List Nat) (kw : List Nat) : Except String (List Nat) :=
  let normalized := normalizeKeyword kw
  if !validKeyword normalized then
    throw "invalid keyword"
  else if normalized.length > 255 then
    throw "keyword exceeds 255 bytes"
  else
    pure (acc ++ normalized.length :: normalized)

/-- Keyword block serialization, continued (`EncodeKeywords`). -/
def encodeKeywords (keywords : List (List Nat)) : Except String (List Nat) :=
  if keywords.length > 65535 then
    throw "too many keywords"
  else
    match keywords.foldlM encodeKeywordStep [] with
    | .error e => .error e
    | .ok body =>
      let out := u16BE keywords.length ++ body
      if out.length > 65535 then
        throw "keywords block exceeds maximum size"
      else
        pure out

/-- One `bytes.Reader.Read` of `k` bytes: end-of-stream with a non-empty
request is an error, otherwise up to `k` available bytes are copied into
a zero-initialized buffer of size `k`. -/
def goRead (k : Nat) (data : List Nat) : Except String (List Nat × List Nat) :=
  if data.isEmpty && k > 0 then
    throw "EOF"
  else
    pure (data.take k ++ List.replicate (k - data.length) 0, data.drop k)

/-- Keyword deserialization loop of `DecodeKeywords`: read one length
byte and that many keyword bytes, `count` times. -/
def decodeKeywordsLoop : Nat → List Nat → List (List Nat) → Except String (List (List Nat))
  | 0, _, acc => pure acc.reverse
  | n + 1, data, acc =>
    match data with
    | [] => throw "failed to read keyword length"
    | lenB :: rest =>
      match goRead lenB rest with
      | .error e => .error e
      | .ok (kw, rest') => decodeKeywordsLoop n rest' (kw :: acc)

/-- Keyword block deserialization (`DecodeKeywords`). -/
def decodeKeywords (data : List Nat) : Except String (List (List Nat)) :=
  if data.length < 2 then
    throw "keywords data too short"
  else
    decodeKeywordsLoop (readU16BE (data.getD 0 0) (data.getD 1 0)) (data.drop 2) []

/-- Header size constant (`CurrentHeaderSize`). -/
def CurrentHeaderSize : Nat := 18

/-- Maximum key length constant (`MaxKeyLength`). -/
def MaxKeyLength : Nat := 65535

/-- Entry serialization (`EncodeEntry`): 18-byte header (header size,
flags, key/primary/secondary/keyword lengths, CRC32) followed by key,
keyword block, primary and secondary bytes; the CRC32/IEEE checksum of
the whole record with the CRC field zeroed is stored at bytes 14-17. -/
def encodeEntry (e : Entry) : Except String (List Nat) :=
  match encodeKeywords e.keywords with
  | .error e' => .error e'
  | .ok kwBytes =>
    if e.key.length > MaxKeyLength then
      throw "key exceeds maximum length"
    else
      let pre : List Nat :=
        [CurrentHeaderSize, encodeFlags e.flags] ++
        u16BE e.key.length ++ u32BE e.primaryData.length ++ u32BE e.secondaryData.length ++
        u16BE kwBytes.length ++ [0, 0, 0, 0] ++
        e.key ++ kwBytes ++ e.primaryData ++ e.secondaryData
      pure (pre.take 14 ++ u32BE (crc32IEEE pre) ++ pre.drop 18)

/-- Parsed entry header (`storage.EntryHeader`). -/
structure EntryHeader where
  headerSize : Nat
  flags : Nat
  keyLen : Nat
  primaryLen : Nat
  secondaryLen : Nat
  kwLen : Nat
  crc32 : Nat
deriving DecidableEq

/-- Header parsing (`DecodeEntryHeader`): requires at least 18 bytes and
a declared header size within the buffer. -/
def decodeEntryHeader (data : List Nat) : Except String EntryHeader :=
  if data.length < CurrentHeaderSize then
    throw "data too short for header"
  else if data.getD 0 0 > data.length then
    throw "header size exceeds data length"
  else
    pure
      { headerSize := data.getD 0 0
        flags := data.getD 1 0
        keyLen := readU16BE (data.getD 2 0) (data.getD 3 0)
        primaryLen := readU32BE ((data.drop 4).take 4)
        secondaryLen := readU32BE ((data.drop 8).take 4)
        kwLen := readU16BE (data.getD 12 0) (data.getD 13 0)
        crc32 := readU32BE ((data.drop 14).take 4) }

/-- Entry deserialization (`DecodeEntry`): parse the header, check the
CRC over the record with the CRC field zeroed, check the declared
section lengths against the buffer, slice out the sections and decode
the keyword block. -/
def decodeEntry (data : List Nat) : Except String Entry :=
  match decodeEntryHeader data with
  | .error e => .error e
  | .ok header =>
    let dataCopy := data.take 14 ++ [0, 0, 0, 0] ++ data.drop 18
    if header.crc32 ≠ crc32IEEE dataCopy then
      throw "CRC mismatch"
    else
      let keyStart := header.headerSize
      let keyEnd := keyStart + header.keyLen
      let kwEnd := keyEnd + header.kwLen
      let primaryEnd := kwEnd + header.primaryLen
      let secondaryEnd := primaryEnd + header.secondaryLen
      if secondaryEnd > data.length then
        throw "data truncated"
      else
        match decodeKeywords ((data.drop keyEnd).take header.kwLen) with
        | .error e => .error e
        | .ok keywords =>
          pure
            { flags := parseFlags header.flags
              key := (data.drop keyStart).take header.keyLen
              keywords := keywords
              primaryData := (data.drop kwEnd).take header.primaryLen
              secondaryData := (data.drop primaryEnd).take header.secondaryLen }

/-- The serialized keyword bodies: for each keyword its normalized form
preceded by its length byte (the loop body of `EncodeKeywords`). -/
def kwBody (kws : List (List Nat)) : List Nat :=
  kws.flatMap (fun kw => (normalizeKeyword kw).length :: normalizeKeyword kw)

/-- The 14 bytes of the `EncodeEntry` header before the CRC field. -/
def entryHead (e : Entry) : List Nat :=
  [CurrentHeaderSize, encodeFlags e.flags] ++
  u16BE e.key.length ++ u32BE e.primaryData.length ++ u32BE e.secondaryData.length ++
  u16BE ((kwBody e.keywords).length + 2)

/-- The record body after the 18-byte header: key, keyword block,
primary and secondary bytes. -/
def entryBody (e : Entry) : List Nat :=
  e.key ++ (u16BE e.keywords.length ++ kwBody e.keywords) ++
  e.primaryData ++ e.secondaryData

/-- The checksummed preimage of `EncodeEntry` (its local `data` before
the CRC patch): the complete record with the CRC field still zero. -/
def entryPre (e : Entry) : List Nat :=
  entryHead e ++ [0, 0, 0, 0] ++ entryBody e

/-- The `EncodeEntry` output: the 14 header bytes, the CRC-32 of
`entryPre`, and the body. -/
def entryOut (e : Entry) : List Nat :=
  entryHead e ++ u32BE (crc32IEEE (entryPre e)) ++ entryBody e

/-! ## BLAKE3

The shard router hashes keys with BLAKE3 (external dependency
`github.com/zeebo/blake3`, 32-byte digest). The hash is embedded here in
full from the published BLAKE3 specification: the ARX compression
function over 32-bit words, the chunk chaining, and the binary tree over
chunks (left subtree takes the largest power-of-two number of chunks
that leaves at least one byte on the right). A known-answer theorem for
the empty input is proved below. -/

/-- Addition modulo `2 ^ 32`. -/
def add32 (a b : Nat) : Nat := (a + b) % 2 ^ 32

/-- Right rotation of a 32-bit word by `n` bits. -/
def rotr32 (x n : Nat) : Nat := x / 2 ^ n + x % 2 ^ n * 2 ^ (32 - n)

/-- BLAKE3 initialization vector (the SHA-256 constants). -/
def b3IV : List Nat :=
  [0x6A09E667, 0xBB67AE85, 0x3C6EF372, 0xA54FF53A,
   0x510E527F, 0x9B05688C, 0x1F83D9AB, 0x5BE0CD19]

/-- BLAKE3 message word permutation applied between rounds. -/
def b3Permutation : List Nat := [2, 6, 3, 10, 7, 0, 4, 13, 1, 11, 12, 5, 9, 14, 15, 8]

/-- BLAKE3 quarter-round `g` on state positions `a b c d` with message
words `mx my`. -/
def b3G (a b c d mx my : Nat) (st : List Nat) : List Nat :=
  let va := st.getD a 0
  let vb := st.getD b 0
  let vc := st.getD c 0
  let vd := st.getD d 0
  let va1 := add32 (add32 va vb) mx
  let vd1 := rotr32 (vd ^^^ va1) 16
  let vc1 := add32 vc vd1
  let vb1 := rotr32 (vb ^^^ vc1) 12
  let va2 := add32 (add32 va1 vb1) my
  let vd2 := rotr32 (vd1 ^^^ va2) 8
  let vc2 := add32 vc1 vd2
  let vb2 := rotr32 (vb1 ^^^ vc2) 7
  ((((st.set a va2).set b vb2).set c vc2).set d vd2)

/-- One BLAKE3 round: mix the four columns, then the four diagonals. -/
def b3Round (m : List Nat) (st : List Nat) : List Nat :=
  let mi := fun i => m.getD i 0
  st
  |> b3G 0 4 8 12 (mi 0) (mi 1)
  |> b3G 1 5 9 13 (mi 2) (mi 3)
  |> b3G 2 6 10 14 (mi 4) (mi 5)
  |> b3G 3 7 11 15 (mi 6) (mi 7)
  |> b3G 0 5 10 15 (mi 8) (mi 9)
  |> b3G 1 6 11 12 (mi 10) (mi 11)
  |> b3G 2 7 8 13 (mi 12) (mi 13)
  |> b3G 3 4 9 14 (mi 14) (mi 15)

/-- Permute the sixteen message words. -/
def b3Permute (m : List Nat) : List Nat :=
  b3Permutation.map (fun i => m.getD i 0)

/-- Seven-round core loop of the compression function. -/
def b3Rounds : Nat → List Nat → List Nat → List Nat
  | 0, _, st => st
  | n + 1, m, st => b3Rounds n (b3Permute m) (b3Round m st)

/-- BLAKE3 compression function: returns the sixteen output words
(chaining values use the first eight). -/
def b3Compress (cv block : List Nat) (counter blockLen flags : Nat) : List Nat :=
  let st0 := cv.take 8 ++ b3IV.take 4 ++
    [counter % 2 ^ 32, counter / 2 ^ 32 % 2 ^ 32, blockLen % 2 ^ 32, flags % 2 ^ 32]
  let st := b3Rounds 7 block st0
  (List.range 8).map (fun i => st.getD i 0 ^^^ st.getD (i + 8) 0) ++
  (List.range 8).map (fun i => st.getD (i + 8) 0 ^^^ cv.getD i 0)

/-- Split a byte sequence into little-endian 32-bit words. -/
def wordsLE : List Nat → List Nat
  | [] => []
  | b0 :: b1 :: b2 :: b3 :: bs => readU32LE [b0, b1, b2, b3] :: wordsLE bs
  | bs => [readU32LE bs]

/-- Pad a block (at most 64 bytes) with zeros and convert to its sixteen
message words. -/
def blockWords (bytes : List Nat) : List Nat :=
  wordsLE (bytes ++ List.replicate (64 - bytes.length) 0)

/-- Split a chunk (at most 1024 bytes) into 64-byte blocks; an empty
chunk still yields one (empty) block. -/
def chunkBlocks (data : List Nat) : List (List Nat) :=
  if h : data.length ≤ 64 then [data]
  else data.take 64 :: chunkBlocks (data.drop 64)
termination_by data.length
decreasing_by
  simp only [List.length_drop]
  omega

/-- Pending final compression of a chunk or parent node: the ROOT flag
is added only at the very top of the tree. -/
structure B3Output where
  inputCV : List Nat
  blockW : List Nat
  counter : Nat
  blockLen : Nat
  flags : Nat

/-- Chaining value of a pending output. -/
def b3ChainingValue (o : B3Output) : List Nat :=
  (b3Compress o.inputCV o.blockW o.counter o.blockLen o.flags).take 8

/-- First 32 bytes of the root output: run the final compression with
the ROOT flag set. -/
def b3RootBytes (o : B3Output) : List Nat :=
  ((b3Compress o.inputCV o.blockW o.counter o.blockLen (o.flags ||| 8)).take 8).flatMap u32LE

/-- Fold the blocks of one chunk: every block but the last updates the
chaining value (the first with CHUNK_START set), the last becomes the
pending output with CHUNK_END set. -/
def chunkFold (counter : Nat) (cv : List Nat) (startFlag : Nat) : List (List Nat) → B3Output
  | [] => ⟨cv, blockWords [], counter, 0, startFlag ||| 2⟩
  | [b] => ⟨cv, blockWords b, counter, b.length, startFlag ||| 2⟩
  | b :: b' :: rest =>
    chunkFold counter ((b3Compress cv (blockWords b) counter 64 startFlag).take 8) 0 (b' :: rest)

/-- Pending output of a single chunk at the given chunk counter. -/
def chunkOutput (counter : Nat) (data : List Nat) : B3Output :=
  chunkFold counter b3IV 1 (chunkBlocks data)

/-- Largest power of two less than or equal to `n` (for `n ≥ 1`). -/
def prevPowTwo (n : Nat) : Nat := 2 ^ Nat.log 2 n

/-- Pending output of the BLAKE3 tree over a byte sequence starting at
the given chunk counter: a single chunk if the data fits in 1024 bytes,
otherwise a PARENT node over the left subtree (largest power-of-two
number of chunks leaving at least one byte on the right) and the right
subtree. -/
def b3Subtree (data : List Nat) (counter : Nat) : B3Output :=
  if h : data.length ≤ 1024 then chunkOutput counter data
  else
    let leftChunks := prevPowTwo ((data.length - 1) / 1024)
    let leftLen := 1024 * leftChunks
    ⟨b3IV,
     b3ChainingValue (b3Subtree (data.take leftLen) counter) ++
     b3ChainingValue (b3Subtree (data.drop leftLen) (counter + leftChunks)),
     0, 64, 4⟩
termination_by data.length
decreasing_by
  · have hle : prevPowTwo ((data.length - 1) / 1024) ≤ (data.length - 1) / 1024 :=
      Nat.pow_log_le_self 2 (by omega)
    have h1 : 1024 * prevPowTwo ((data.length - 1) / 1024) ≤ data.length - 1 := by
      have := Nat.mul_le_mul_left 1024 hle
      calc 1024 * prevPowTwo ((data.length - 1) / 1024)
          ≤ 1024 * ((data.length - 1) / 1024) := this
        _ ≤ data.length - 1 := Nat.mul_div_le _ _
    simp only [List.length_take]
    omega
  · have hpos : 1 ≤ prevPowTwo ((data.length - 1) / 1024) := Nat.one_le_two_pow
    simp only [List.length_drop]
    omega

/-- BLAKE3 hash, 32-byte digest (the output size used by the source's
`blake3.New()` / `Sum(nil)`). -/
def blake3Hash (data : List Nat) : List Nat :=
  b3RootBytes (b3Subtree data 0)

/-! ## Association lists (Go maps)

Go maps are embedded as association lists: lookup finds the first
matching key, assignment replaces in place or appends, deletion removes
all entries with the key. States built by the operations keep their keys
distinct, so these are exactly map semantics there. -/

/-- Go map read `m[k]` (as an `Option`). -/
def assocFind {α β : Type} [DecidableEq α] (l : List (α × β)) (k : α) : Option β :=
  (l.find? (fun p => decide (p.1 = k))).map (·.2)

/-- Go map read `m[k]` with the zero value as default. -/
def assocFindD {α β : Type} [DecidableEq α] (l : List (α × β)) (k : α) (dfl : β) : β :=
  (assocFind l k).getD dfl

/-- Go map assignment `m[k] = v`. -/
def assocPut {α β : Type} [DecidableEq α] : List (α × β) → α → β → List (α × β)
  | [], k, v => [(k, v)]
  | (k', v') :: rest, k, v =>
    if k' = k then (k, v) :: rest else (k', v') :: assocPut rest k v

/-- Go map deletion `delete(m, k)`. -/
def assocRemove {α β : Type} [DecidableEq α] (l : List (α × β)) (k : α) : List (α × β) :=
  l.filter (fun p => decide (p.1 ≠ k))

/-! ## Shard manager (`internal/storage/storage.go`)

Each of the sixteen buckets holds its append-only data file (a byte
sequence) and its in-memory offset index. The zstd codec
(`CompressBytes` / `DecompressBytes`, external dependency
`github.com/klauspost/compress/zstd`) is passed as an explicit function
parameter, so every theorem holds for any codec behaviour. -/

/-- Partition count constant (`PartitionCount`). -/
def PartitionCount : Nat := 16

/-- One shard (`storage.Bucket`): data file bytes and the in-memory
`key → offsets` index. -/
structure Bucket where
  file : List Nat
  index : List (List Nat × List Nat)
deriving DecidableEq

/-- Bucket with an empty file and index. -/
def emptyBucket : Bucket := ⟨[], []⟩

/-- Shard manager (`storage.Manager`): the sixteen buckets. -/
structure Manager where
  buckets : List Bucket
deriving DecidableEq

/-- Freshly initialized manager: sixteen empty buckets. -/
def managerInit : Manager := ⟨List.replicate PartitionCount emptyBucket⟩

/-- Shard routing (`Manager.getBucketID`): BLAKE3 the key, take the
first four digest bytes big-endian, reduce modulo `PartitionCount`. The
`Manager` receiver is kept to state that the result does not depend on
it. -/
def managerGetBucketID (m : Manager) (key : List Nat) : Nat :=
  let sum := blake3Hash key
  let val := readU32BE (sum.take 4)
  val % PartitionCount

/-- Shard assignment as written in the spec:
`shard(key) = BigEndianU32(BLAKE3(key)[0..4]) mod N` with fixed `N = 16`. -/
def shardAssignSpec (key : List Nat) : Nat :=
  readU32BE ((blake3Hash key).take 4) % 16

/-- Errors of `Manager.Append` that are decided by the in-memory model
(I/O failures are outside the pure embedding). -/
inductive StorageErr
  | invalidKeyLength
  | payloadTooLarge
deriving DecidableEq

/-- Shard-log append (`Manager.Append`): reject an empty key or a key
longer than 1024 bytes, compress the payload, reject a compressed
payload at or above `math.MaxInt32` bytes, append
`[keyLen u32 BE][key][compressedLen u32 BE][compressed]` at the end of
the shard file and push the pre-write offset onto the key's offset
list. -/
def managerAppend (compress : List Nat → List Nat) (m : Manager) (key payload : List Nat) :
    Except StorageErr Manager :=
  if key.length = 0 ∨ key.length > 1024 then
    throw .invalidKeyLength
  else
    let bid := managerGetBucketID m key
    let bucket := m.buckets.getD bid emptyBucket
    let offset := bucket.file.length
    let compressed := compress payload
    if compressed.length ≥ 2 ^ 31 - 1 then
      throw .payloadTooLarge
    else
      let record := u32BE key.length ++ key ++ u32BE compressed.length ++ compressed
      let bucket' : Bucket :=
        ⟨bucket.file ++ record,
         assocPut bucket.index key ((assocFind bucket.index key).getD [] ++ [offset])⟩
      pure ⟨m.buckets.set bid bucket'⟩

/-- Number of stored offsets for a key (`Manager.GetLength`). -/
def managerGetLength (m : Manager) (key : List Nat) : Nat :=
  ((assocFind (m.buckets.getD (managerGetBucketID m key) emptyBucket).index key).getD []).length

/-- Record read at an offset (`Bucket.readRecordAt`): parse
`[keyLen][key][payloadLen][payload]` at the offset and decompress the
payload. The source's speculative 4 KiB read and its fallback paths
produce these same bytes; both collapse to direct parsing in the pure
model. -/
def readRecordAt (decompress : List Nat → Except String (List Nat)) (file : List Nat)
    (offset : Nat) : Except String (List Nat) :=
  if file.length < offset + 4 then
    throw "record too short"
  else
    let keyLen := readU32BE ((file.drop offset).take 4)
    if file.length < offset + 4 + keyLen + 4 then
      throw "record truncated"
    else
      let payloadLen := readU32BE ((file.drop (offset + 4 + keyLen)).take 4)
      if file.length < offset + 8 + keyLen + payloadLen then
        throw "record truncated"
      else
        decompress ((file.drop (offset + 8 + keyLen)).take payloadLen)

/-- Positional read (`Manager.Get`): look up the key's offset list,
bounds-check the index, read the record at the selected offset. -/
def managerGet (decompress : List Nat → Except String (List Nat)) (m : Manager)
    (key : List Nat) (index : Nat) : Except String (List Nat) :=
  let bucket := m.buckets.getD (managerGetBucketID m key) emptyBucket
  let offsets := (assocFind bucket.index key).getD []
  if index ≥ offsets.length then
    throw "index out of bounds or key not found"
  else
    readRecordAt decompress bucket.file (offsets.getD index 0)

/-- Shard-level key deletion (`Manager.DeleteKey`): remove the key from
the in-memory index only; payload bytes stay in the file. -/
def managerDeleteKey (m : Manager) (key : List Nat) : Manager :=
  let bid := managerGetBucketID m key
  let bucket := m.buckets.getD bid emptyBucket
  ⟨m.buckets.set bid ⟨bucket.file, assocRemove bucket.index key⟩⟩

/-! ## Forward index (`ForwardIndex`, persisted as `doc_map.bin`) -/

/-- A block position (`storage.DocLocation`). -/
structure DocLocation where
  key : List Nat
  index : Nat
deriving DecidableEq

/-- Forward-index map `vector-id → (key, block-index)` as an association
list (`ForwardIndex.mapping`). -/
abbrev ForwardMap : Type := List (Nat × DocLocation)

/-- Number of forward-index entries (`ForwardIndex.Count`). -/
def forwardCount (fi : ForwardMap) : Nat :=
  fi.length

/-- Running maximum of the vector ids in the map, as the loop of
`GetNextVectorID` computes it (map iteration order does not matter for a
maximum). -/
def forwardMaxId (fi : ForwardMap) : Nat :=
  fi.foldl (fun maxID p => if p.1 > maxID then p.1 else maxID) 0

/-- Mint the next vector id (`ForwardIndex.GetNextVectorID`): the
current maximum id plus one, in `uint64` arithmetic. -/
def getNextVectorID (fi : ForwardMap) : Nat :=
  (forwardMaxId fi + 1) % 2 ^ 64

/-! ## Inverted index (`InvertedIndex`, `internal/storage/compress.go`)

Tokens are byte strings; trigram windows are taken over bytes, which
coincides with the source's rune windows on ASCII keywords (the shape
the validated pipeline stores). The index is only written by the claims
under verification, never queried, so the search modes are not
embedded. -/

/-- Trigram generation (`GenerateTrigrams`): lowercase, keep a short
keyword whole, otherwise every 3-character window. -/
def generateTrigrams (keyword : List Nat) : List (List Nat) :=
  let kw := normalizeKeyword keyword
  if kw.length < 3 then [kw]
  else (List.range (kw.length - 2)).map (fun i => (kw.drop i).take 3)

/-- Append a vector id to a postings list unless already present
(`appendUnique`). -/
def appendUnique (slice : List Nat) (value : Nat) : List Nat :=
  if value ∈ slice then slice else slice ++ [value]

/-- The full-keyword token namespace: the keyword behind the `kw:`
marker bytes. -/
def kwToken (kw : List Nat) : List Nat :=
  [107, 119, 58] ++ kw

/-- Inverted-index map `token → postings`. -/
abbrev InvMap : Type := List (List Nat × List Nat)

/-- Posting insertion for one token. -/
def invPutToken (ii : InvMap) (token : List Nat) (vectorID : Nat) : InvMap :=
  assocPut ii token (appendUnique ((assocFind ii token).getD []) vectorID)

/-- Index keywords for a vector id (`InvertedIndex.Add`): for each
keyword, lowercased, add the id under every trigram and under the full
`kw:` token. -/
def invAdd (ii : InvMap) (keywords : List (List Nat)) (vectorID : Nat) : InvMap :=
  keywords.foldl
    (fun acc kw =>
      let kwL := normalizeKeyword kw
      invPutToken ((generateTrigrams kwL).foldl (fun a tg => invPutToken a tg vectorID) acc)
        (kwToken kwL) vectorID)
    ii

/-! ## Collection (`Collection`, second file of
`internal/storage/compress_test.go`)

The HNSW index inside a collection is projected onto its node map
`id → vector`: `Add` and `Delete` mutate exactly one node-map entry (the
neighbor-list edits touch only other nodes' neighbor lists, never the id
set), `Count`, `Contains` and `GetVectorByID` read only the node map,
and those are the only HNSW observables of the collection-level claims.
The insertion-time level sampling and edge bookkeeping are therefore not
part of this projection; the full candidate-search algorithm is embedded
separately below for the search claim. Vector components are exact
rationals; only their count (the dimension check) matters here. -/

/-- HNSW index projected onto its node map. -/
structure HnswNodes where
  nodes : List (Nat × List Rat)
  dimensions : Nat
deriving DecidableEq

/-- Node count (`HNSWWrapper.Count`). -/
def hnswNodeCount (h : HnswNodes) : Nat :=
  h.nodes.length

/-- Vector insertion (`HNSWWrapper.Add`): dimension-mismatch error on a
vector of the wrong length, duplicate-id error on an existing id,
otherwise record the node. -/
def hnswAdd (h : HnswNodes) (vectorID : Nat) (vector : List Rat) :
    Except String HnswNodes :=
  if vector.length ≠ h.dimensions then
    throw "vector dimension mismatch"
  else if (assocFind h.nodes vectorID).isSome then
    throw "vector ID already exists"
  else
    pure ⟨h.nodes ++ [(vectorID, vector)], h.dimensions⟩

/-- Vector deletion (`HNSWWrapper.Delete`): not-found error on a missing
id, otherwise remove the node. -/
def hnswDelete (h : HnswNodes) (vectorID : Nat) : Except String HnswNodes :=
  if (assocFind h.nodes vectorID).isSome then
    pure ⟨assocRemove h.nodes vectorID, h.dimensions⟩
  else
    throw "vector ID not found"

/-- Block payload (`types.BlockData`). -/
structure BlockData where
  primary : List Nat
  vector : List Rat
  keywords : List (List Nat)
deriving DecidableEq

/-- Collection state: configuration dimension, the three indexes and the
two in-memory tables. -/
structure Collection where
  dims : Nat
  hnsw : HnswNodes
  inv : InvMap
  docMap : ForwardMap
  keyLengths : List (List Nat × Nat)
  keyIndex : List (List Nat × List Nat)
deriving DecidableEq

/-- Freshly created collection (`CollectionManager.CreateCollection`):
all indexes and tables empty. -/
def collInit (dims : Nat) : Collection :=
  ⟨dims, ⟨[], dims⟩, [], [], [], []⟩

/-- Block append (`Collection.AppendBlock`): the new index is the key's
current length, the id is minted from the forward index, the vector is
added to HNSW only when non-empty (a failed add aborts with no state
change), the forward index records `(key, index)` under the id, non-empty
keywords are indexed, and the in-memory tables are updated (`uint32`
increment of the length). -/
def collAppendBlock (c : Collection) (key : List Nat) (block : BlockData) :
    Except String Nat × Collection :=
  let index := assocFindD c.keyLengths key 0
  let vectorID := getNextVectorID c.docMap
  let hnswRes : Except String HnswNodes :=
    if block.vector ≠ [] then hnswAdd c.hnsw vectorID block.vector else pure c.hnsw
  match hnswRes with
  | .error e => (.error e, c)
  | .ok hnsw' =>
    let docMap' := assocPut c.docMap vectorID ⟨key, index⟩
    let inv' := if block.keywords ≠ [] then invAdd c.inv block.keywords vectorID else c.inv
    let keyLengths' := assocPut c.keyLengths key ((index + 1) % 2 ^ 32)
    let keyIndex' := assocPut c.keyIndex key ((assocFindD c.keyIndex key []) ++ [vectorID])
    (.ok index, ⟨c.dims, hnsw', inv', docMap', keyLengths', keyIndex'⟩)

/-- Key deletion (`Collection.DeleteKey`): not-found error on a missing
key; otherwise delete each of the key's vector ids from HNSW (result
ignored, as in the source) and from the forward index, and drop the key
from both in-memory tables. The inverted index intentionally keeps its
postings. -/
def collDeleteKey (c : Collection) (key : List Nat) : Except String Unit × Collection :=
  match assocFind c.keyIndex key with
  | none => (.error "key not found", c)
  | some vectorIDs =>
    let hnsw' := vectorIDs.foldl
      (fun h id => match hnswDelete h id with | .ok h' => h' | .error _ => h) c.hnsw
    let docMap' := vectorIDs.foldl (fun fi id => assocRemove fi id) c.docMap
    (.ok (), ⟨c.dims, hnsw', c.inv, docMap',
      assocRemove c.keyLengths key, assocRemove c.keyIndex key⟩)

/-- Vector count (`Collection.Count`): the HNSW node count. -/
def collCount (c : Collection) : Nat :=
  hnswNodeCount c.hnsw

/-- Key membership (`Collection.ContainsKey`): presence in the length
table. -/
def collContainsKey (c : Collection) (key : List Nat) : Bool :=
  (assocFind c.keyLengths key).isSome

/-- Key length (`Collection.GetKeyLength`). -/
def collGetKeyLength (c : Collection) (key : List Nat) : Except String Nat :=
  match assocFind c.keyLengths key with
  | some l => pure l
  | none => throw "key not found"

/-- Vector id of a block (`Collection.GetBlockVectorID`): scan the key's
id list for the id whose forward-index entry carries the requested
block index. -/
def collGetBlockVectorID (c : Collection) (key : List Nat) (index : Nat) :
    Except String Nat :=
  match assocFind c.keyIndex key with
  | none => throw "key not found"
  | some vectorIDs =>
    match vectorIDs.find? (fun id =>
        match assocFind c.docMap id with
        | some loc => decide (loc.index = index)
        | none => false) with
    | some id => pure id
    | none => throw "block not found for key"

/-- In-memory vector read (`Collection.GetVectorByID`). -/
def collGetVectorByID (c : Collection) (id : Nat) : Option (List Rat) :=
  assocFind c.hnsw.nodes id

/-- Orphan count of the repair pass (`RepairManager.CheckConsistency`):
ids present in the HNSW node map but absent from the forward index. -/
def orphanCount (c : Collection) : Nat :=
  (c.hnsw.nodes.filter (fun p => (assocFind c.docMap p.1).isNone)).length

/-! ### Collection operation sequences -/

/-- One collection-level mutation. -/
inductive ColOp
  | append (key : List Nat) (block : BlockData)
  | delete (key : List Nat)

/-- Apply one operation, keeping the state of a failed operation (the
operations above leave the state unchanged on error). -/
def collStep (c : Collection) (op : ColOp) : Collection :=
  match op with
  | .append key block => (collAppendBlock c key block).2
  | .delete key => (collDeleteKey c key).2

/-- State after a sequence of operations on a fresh collection. -/
def collRun (dims : Nat) (ops : List ColOp) : Collection :=
  ops.foldl collStep (collInit dims)

/-- Trace of minted ids from a given state: for every operation, the id
minted by a successful append (`some`, the value `GetNextVectorID`
returned for it), otherwise `none`. -/
def collMintedFrom (c : Collection) : List ColOp → List (Option Nat)
  | [] => []
  | op :: rest =>
    (match op with
     | ColOp.append key block =>
       match (collAppendBlock c key block).1 with
       | .ok _ => some (getNextVectorID c.docMap)
       | .error _ => none
     | ColOp.delete _ => none) :: collMintedFrom (collStep c op) rest

/-- Trace of minted ids over a run on a fresh collection. -/
def collMintedTrace (dims : Nat) (ops : List ColOp) : List (Option Nat) :=
  collMintedFrom (collInit dims) ops

/-- Whether an operation is an append. -/
def ColOp.isAppendOp : ColOp → Bool
  | .append _ _ => true
  | .delete _ => false

/-! ## WAL and vector manager (`WAL`, `VectorManager`)

A WAL record carries the fields of `storage.WALEntry` except the
wall-clock timestamp, which no modeled claim observes. The WAL file is
the sequence of durably logged records. `LogAdd`/`LogDelete` encode the
record and then fsync; the boolean `walOk` parameter injects the success
or failure of that write-plus-fsync (an I/O outcome outside the pure
model). On failure the record is kept in the modeled log (the bytes may
have reached the file before the failed fsync) and the operation
reports the error; no modeled claim observes WAL content on the failure
path. -/

/-- One WAL record (`storage.WALEntry` without the timestamp):
op 1 is `WALOpAdd`, op 2 is `WALOpDelete`. -/
structure WalRecord where
  op : Nat
  collection : List Nat
  key : List Nat
  vectorID : Nat
  vector : List Rat
  keywords : List (List Nat)
  data : List Nat
deriving DecidableEq

/-- Vector-manager state (`storage.VectorManager`): the shard manager,
the collection map and the WAL. -/
structure VMState where
  mgr : Manager
  colls : List (List Nat × Collection)
  wal : List WalRecord
deriving DecidableEq

/-- Block append (`VectorManager.AppendBlock`): resolve the collection,
WAL-log the add (aborting on WAL failure), run the collection-level
append, read back the minted vector id, encode the on-disk entry with
the vector flag iff a vector was supplied and the id as big-endian
secondary bytes, and append it to the shard log. The Go storage-failure
path returns the index together with the error; the embedding reports
the error (no modeled claim observes the partial index). -/
def vmAppendBlock (compress : List Nat → List Nat) (walOk : Bool) (vm : VMState)
    (collection key : List Nat) (block : BlockData) : Except String Nat × VMState :=
  match assocFind vm.colls collection with
  | none => (.error "collection not found", vm)
  | some coll =>
    let wrec : WalRecord := ⟨1, collection, key, 0, block.vector, block.keywords, block.primary⟩
    if !walOk then
      (.error "WAL logging failed", { vm with wal := vm.wal ++ [wrec] })
    else
      let vm1 := { vm with wal := vm.wal ++ [wrec] }
      match collAppendBlock coll key block with
      | (.error e, _) => (.error e, vm1)
      | (.ok index, coll') =>
        let vm2 := { vm1 with colls := assocPut vm1.colls collection coll' }
        match collGetBlockVectorID coll' key index with
        | .error _ => (.error "failed to retrieve vector ID after append", vm2)
        | .ok vectorID =>
          let entry : Entry :=
            { flags := ⟨if block.vector.length > 0 then 1 else 0, false, false⟩
              key := key
              keywords := block.keywords
              primaryData := block.primary
              secondaryData := u64BE vectorID }
          match encodeEntry entry with
          | .error _ => (.error "failed to encode entry", vm2)
          | .ok encoded =>
            match managerAppend compress vm2.mgr key encoded with
            | .error _ => (.error "storage append failed", vm2)
            | .ok mgr' => (.ok index, { vm2 with mgr := mgr' })

/-- Key deletion (`VectorManager.DeleteKey`): resolve the collection,
WAL-log the delete (aborting on WAL failure), run the collection-level
delete. The shard manager is not touched. -/
def vmDeleteKey (walOk : Bool) (vm : VMState) (collection key : List Nat) :
    Except String Unit × VMState :=
  match assocFind vm.colls collection with
  | none => (.error "collection not found", vm)
  | some coll =>
    let wrec : WalRecord := ⟨2, collection, key, 0, [], [], []⟩
    if !walOk then
      (.error "WAL logging failed", { vm with wal := vm.wal ++ [wrec] })
    else
      let vm1 := { vm with wal := vm.wal ++ [wrec] }
      match collDeleteKey coll key with
      | (.error e, _) => (.error e, vm1)
      | (.ok _, coll') => (.ok (), { vm1 with colls := assocPut vm1.colls collection coll' })

/-- Block read (`VectorManager.GetBlock`): resolve the collection, check
the collection-level key table first, read and decode the shard-log
payload, and attach the in-memory vector when the decoded secondary
field is eight bytes and the id resolves in HNSW. -/
def vmGetBlock (decompress : List Nat → Except String (List Nat)) (vm : VMState)
    (collection key : List Nat) (index : Nat) : Except String BlockData :=
  match assocFind vm.colls collection with
  | none => throw "collection not found"
  | some coll =>
    if !collContainsKey coll key then
      throw "key not found"
    else do
      let payload ← managerGet decompress vm.mgr key index
      match decodeEntry payload with
      | .error _ => throw "failed to decode entry"
      | .ok entry =>
        if entry.secondaryData.length = 8 then
          let vectorID := readU64BE entry.secondaryData
          match collGetVectorByID coll vectorID with
          | some vec => pure ⟨entry.primaryData, vec, entry.keywords⟩
          | none => pure ⟨entry.primaryData, [], entry.keywords⟩
        else
          pure ⟨entry.primaryData, [], entry.keywords⟩

/-! ## HNSW binary persistence (`vectors.hnsw`, binary-format
`HNSWWrapper.Save` / `Load` in `internal/storage/repair.go`)

For persistence a vector component is its raw `float32` bit pattern (a
`Nat` below `2 ^ 32`); `binary.Write` of a `float32` little-endian is
exactly the 4-byte little-endian encoding of that pattern. -/

/-- Distance metric (`types.DistanceMetric`). -/
inductive Metric
  | l2
  | cosine
  | ip
deriving DecidableEq

/-- Metric byte encoding (`metricToByte`). -/
def metricToByte : Metric → Nat
  | .cosine => 1
  | .ip => 2
  | .l2 => 0

/-- Metric byte decoding (`byteToMetric`): unknown bytes fall back to
L2. -/
def byteToMetric (b : Nat) : Metric :=
  if b = 1 then .cosine else if b = 2 then .ip else .l2

/-- The magic bytes `HNSWV001`. -/
def hnswMagicBytes : List Nat := [72, 78, 83, 87, 86, 48, 48, 49]

/-- One graph node for persistence (`hnswNode` without the redundant id
field): bit-pattern vector, level, per-level neighbor ids. -/
structure HWNode where
  vector : List Nat
  level : Nat
  neighbors : List (List Nat)
deriving DecidableEq

/-- Persisted graph state (the fields of `HNSWWrapper` that `Save`
writes). -/
structure HWGraph where
  nodes : List (Nat × HWNode)
  entryPoint : Nat
  hasEntry : Bool
  dimensions : Nat
  metric : Metric
  maxLevel : Nat
  mParam : Nat
deriving DecidableEq

/-- Node ids sorted ascending for deterministic output (`sort.Slice`
with `<`). -/
def savedNodeIDs (g : HWGraph) : List Nat :=
  List.insertionSort (· ≤ ·) (g.nodes.map Prod.fst)

/-- Node lookup during save (ids from the key list are present). -/
def hwNodeLookup (g : HWGraph) (id : Nat) : HWNode :=
  (assocFind g.nodes id).getD ⟨[], 0, []⟩

/-- Total neighbor count of a node across all levels. -/
def neighborCountOf (node : HWNode) : Nat :=
  (node.neighbors.map List.length).sum

/-- Size of a node's slice of the neighbor section:
`[levelCount u16]` plus `[count u16][ids u64]` per level. -/
def neighborSizeOf (node : HWNode) : Nat :=
  2 + (node.neighbors.map (fun ns => 2 + ns.length * 8)).sum

/-- The fixed 64-byte header: magic, dimensions, metric byte, three
reserved bytes, node count, entry-point id, max level, `M`, has-entry
flag, 27 reserved bytes; every multi-byte integer little-endian. -/
def hnswHeader (g : HWGraph) : List Nat :=
  hnswMagicBytes ++ u32LE g.dimensions ++ [metricToByte g.metric] ++ [0, 0, 0] ++
  u32LE g.nodes.length ++ u64LE g.entryPoint ++ u32LE g.maxLevel ++ u32LE g.mParam ++
  [if g.hasEntry then 1 else 0] ++ List.replicate 27 0

/-- Absolute offset of the neighbor section: header, node table
(24 bytes per node), vector section (`dims * 4` bytes per node). -/
def neighborSectionBase (g : HWGraph) : Nat :=
  64 + g.nodes.length * 24 + g.nodes.length * (g.dimensions * 4)

/-- Node-table rows for the remaining ids, carrying the running node
position and the running relative neighbor offset; each row is
`{id u64, level u32, vector_offset u32, neighbor_offset u32,
neighbor_count u32}` little-endian. -/
def hnswNodeRows (g : HWGraph) : List Nat → Nat → Nat → List Nat
  | [], _, _ => []
  | id :: rest, i, nOff =>
    let node := hwNodeLookup g id
    u64LE id ++ u32LE node.level ++ u32LE (i * (g.dimensions * 4)) ++
    u32LE (neighborSectionBase g + nOff) ++ u32LE (neighborCountOf node) ++
    hnswNodeRows g rest (i + 1) (nOff + neighborSizeOf node)

/-- The node table, ids ascending. -/
def hnswNodeTable (g : HWGraph) : List Nat :=
  hnswNodeRows g (savedNodeIDs g) 0 0

/-- The vector section: per node in ascending id order, each component
as 4 little-endian bytes. -/
def hnswVectorSection (g : HWGraph) : List Nat :=
  (savedNodeIDs g).flatMap (fun id => (hwNodeLookup g id).vector.flatMap u32LE)

/-- The neighbor section: per node in ascending id order,
`[level_count u16] ([count u16][ids u64 each]) x level_count`,
little-endian. -/
def hnswNeighborSection (g : HWGraph) : List Nat :=
  (savedNodeIDs g).flatMap (fun id =>
    let node := hwNodeLookup g id
    u16LE node.neighbors.length ++
    node.neighbors.flatMap (fun ns => u16LE ns.length ++ ns.flatMap u64LE))

/-- Bytes written by the binary `HNSWWrapper.Save`: header, node table,
vector section, neighbor section. -/
def hnswSaveBytes (g : HWGraph) : List Nat :=
  hnswHeader g ++ hnswNodeTable g ++ hnswVectorSection g ++ hnswNeighborSection g

/-- A concrete one-node graph (id 1, one-dimensional vector, one
neighbor level) used to instantiate the persistence statements. -/
def c2Graph : HWGraph :=
  ⟨[(1, ⟨[0], 0, [[2]]⟩)], 1, true, 1, Metric.l2, 0, 16⟩

/-- Header validation prefix of the binary `HNSWWrapper.Load`: read the
64-byte header (failing on a shorter file), validate the magic, decode
dimensions and metric and check them against the declared configuration.
The remainder of `Load` only reconstructs the in-memory graph. -/
def hnswLoadCheck (data : List Nat) (declaredDims : Nat) (declaredMetric : Metric) :
    Except String Unit :=
  if data.length < 64 then
    throw "failed to read header"
  else if data.take 8 ≠ hnswMagicBytes then
    throw "invalid HNSW file: wrong magic number"
  else
    let dimensions := readU32LE ((data.drop 8).take 4)
    let metric := byteToMetric (data.getD 12 0)
    if dimensions ≠ declaredDims then
      throw "dimension mismatch"
    else if metric ≠ declaredMetric then
      throw "metric mismatch"
    else
      pure ()

/-! ## HNSW search (`HNSWWrapper.Search` / `searchLayer`)

For the search algorithm vector components are exact rationals and the
distance function is an explicit parameter `dist`; the source
instantiates it through the metric dispatch `HNSWWrapper.distance` over
`float32` values, and every theorem below holds for an arbitrary `dist`,
hence in particular for the float32 semantics of each metric. The L2 and
inner-product formulas, which are pure ring expressions, are embedded
exactly; the cosine formula needs a square root and stays behind the
`dist` parameter.

Go's `container/heap` priority queues are embedded by their contract:
`candidates` (a min-heap on distance) is a distance-ascending sorted
list whose head is popped, `results` (a max-heap on distance) is a
distance-descending sorted list whose head is the root `(*results)[0]`
and is removed by `heap.Pop`. Tie order inside a heap is unspecified in
Go and irrelevant to every statement proved here. -/

/-- Squared L2 distance (`distanceL2`), summing over the positions of
the first vector as the Go range loop does. -/
def distanceL2Q (a b : List Rat) : Rat :=
  ((List.range a.length).map (fun i => (a.getD i 0 - b.getD i 0) ^ 2)).sum

/-- Negative inner product (`distanceIP`). -/
def distanceIPQ (a b : List Rat) : Rat :=
  -((List.range a.length).map (fun i => a.getD i 0 * b.getD i 0)).sum

/-- A search candidate (`storage.candidate`). -/
structure Cand where
  id : Nat
  distance : Rat
deriving DecidableEq

/-- Push into the min-heap of candidates: keep the list sorted by
ascending distance. -/
def candPushMin (c : Cand) : List Cand → List Cand
  | [] => [c]
  | d :: ds => if c.distance ≤ d.distance then c :: d :: ds else d :: candPushMin c ds

/-- Push into the max-heap of results: keep the list sorted by
descending distance, the head being the root. -/
def candPushMax (c : Cand) : List Cand → List Cand
  | [] => [c]
  | d :: ds => if d.distance ≤ c.distance then c :: d :: ds else d :: candPushMax c ds

/-- Distance at the root of the results heap (`(*results)[0].Distance`;
only read when the heap is non-empty). -/
def rootDistance : List Cand → Rat
  | [] => 0
  | c :: _ => c.distance

/-- One search-graph node. -/
structure SNode where
  vector : List Rat
  neighbors : List (List Nat)
deriving DecidableEq

/-- Search-relevant state of an `HNSWWrapper`. -/
structure SGraph where
  nodes : List (Nat × SNode)
  entryPoint : Nat
  hasEntry : Bool
  dimensions : Nat
  maxLevel : Nat
  efSearch : Nat
deriving DecidableEq

/-- Mutable state of one `searchLayer` call. -/
structure SLState where
  visited : List Nat
  cands : List Cand
  results : List Cand
deriving DecidableEq

/-- Number of graph entries whose id has not been visited (termination
measure component). -/
def unvisitedCount (nodes : List (Nat × SNode)) (visited : List Nat) : Nat :=
  (nodes.filter (fun p => decide (p.1 ∉ visited))).length

/-- Termination measure of the `searchLayer` loop: every iteration pops
one candidate and pushes at most one candidate per newly visited present
node. -/
def slMeasure (nodes : List (Nat × SNode)) (st : SLState) : Nat :=
  2 * unvisitedCount nodes st.visited + st.cands.length

/-- Inner loop of `searchLayer` over the neighbor ids of the current
node: skip visited ids, mark the id visited, skip missing nodes, and
when the results heap is not full or the neighbor improves on the root,
push the neighbor onto both heaps and drop the root if the results heap
overflows `ef`. -/
def slNeighbors (dist : List Rat → List Rat → Rat) (nodes : List (Nat × SNode))
    (query : List Rat) (ef : Nat) : List Nat → SLState → SLState
  | [], st => st
  | nid :: rest, st =>
    if nid ∈ st.visited then
      slNeighbors dist nodes query ef rest st
    else
      let st1 : SLState := { st with visited := nid :: st.visited }
      match assocFind nodes nid with
      | none => slNeighbors dist nodes query ef rest st1
      | some node =>
        let d := dist query node.vector
        if st1.results.length < ef ∨ d < rootDistance st1.results then
          let results2 := candPushMax ⟨nid, d⟩ st1.results
          let results3 := if results2.length > ef then results2.tail else results2
          slNeighbors dist nodes query ef rest
            ⟨st1.visited, candPushMin ⟨nid, d⟩ st1.cands, results3⟩
        else
          slNeighbors dist nodes query ef rest st1

/-- Unvisited count over a cons cell: one when the head is unvisited,
plus the count over the tail. -/
theorem unvisitedCount_cons_node (p : Nat × SNode) (rest : List (Nat × SNode))
    (visited : List Nat) :
    unvisitedCount (p :: rest) visited =
      (if p.1 ∈ visited then 0 else 1) + unvisitedCount rest visited := by
  simp only [unvisitedCount, List.filter_cons]
  by_cases h : p.1 ∈ visited
  · simp [h]
  · simp [h]
    omega

/-- Unvisited count never grows when an id is marked visited. -/
theorem unvisitedCount_cons_le (nodes : List (Nat × SNode)) (visited : List Nat) (nid : Nat) :
    unvisitedCount nodes (nid :: visited) ≤ unvisitedCount nodes visited := by
  induction nodes with
  | nil => simp [unvisitedCount]
  | cons p rest ih =>
    rw [unvisitedCount_cons_node, unvisitedCount_cons_node]
    have hmono : (if p.1 ∈ nid :: visited then (0 : Nat) else 1) ≤
        (if p.1 ∈ visited then (0 : Nat) else 1) := by
      by_cases h2 : p.1 ∈ visited
      · rw [if_pos h2, if_pos (List.mem_cons_of_mem _ h2)]
      · by_cases h1 : p.1 ∈ nid :: visited
        · rw [if_pos h1, if_neg h2]
          omega
        · rw [if_neg h1, if_neg h2]
    omega

/-- Marking a present, unvisited id strictly shrinks the unvisited
count. -/
theorem unvisitedCount_cons_lt (nodes : List (Nat × SNode)) (visited : List Nat) (nid : Nat)
    (hmem : nid ∈ nodes.map Prod.fst) (hnv : nid ∉ visited) :
    unvisitedCount nodes (nid :: visited) < unvisitedCount nodes visited := by
  induction nodes with
  | nil => simp at hmem
  | cons p rest ih =>
    rw [unvisitedCount_cons_node, unvisitedCount_cons_node]
    rw [List.map_cons] at hmem
    rcases List.mem_cons.mp hmem with hp | hp
    · have h1 : p.1 ∈ nid :: visited := by simp [hp.symm]
      have h2 : p.1 ∉ visited := by rw [← hp]; exact hnv
      rw [if_pos h1, if_neg h2]
      have hle := unvisitedCount_cons_le rest visited nid
      omega
    · have := ih hp
      have hmono : (if p.1 ∈ nid :: visited then (0 : Nat) else 1) ≤
          (if p.1 ∈ visited then (0 : Nat) else 1) := by
        by_cases h2 : p.1 ∈ visited
        · rw [if_pos h2, if_pos (List.mem_cons_of_mem _ h2)]
        · by_cases h1 : p.1 ∈ nid :: visited
          · rw [if_pos h1, if_neg h2]
            omega
          · rw [if_neg h1, if_neg h2]
      omega

/-- Pushing onto the candidates heap grows it by one. -/
theorem candPushMin_length (c : Cand) (l : List Cand) :
    (candPushMin c l).length = l.length + 1 := by
  induction l with
  | nil => rfl
  | cons d ds ih =>
    simp only [candPushMin]
    split
    · simp
    · simp [ih]

/-- Pushing onto the results heap grows it by one. -/
theorem candPushMax_length (c : Cand) (l : List Cand) :
    (candPushMax c l).length = l.length + 1 := by
  induction l with
  | nil => rfl
  | cons d ds ih =>
    simp only [candPushMax]
    split
    · simp
    · simp [ih]

/-- The neighbor loop never increases the termination measure: each push
is paid for by a newly visited present node. -/
theorem slNeighbors_measure (dist : List Rat → List Rat → Rat) (nodes : List (Nat × SNode))
    (query : List Rat) (ef : Nat) (nbrs : List Nat) (st : SLState) :
    slMeasure nodes (slNeighbors dist nodes query ef nbrs st) ≤ slMeasure nodes st := by
  induction nbrs generalizing st with
  | nil => simp [slNeighbors]
  | cons nid rest ih =>
    simp only [slNeighbors]
    by_cases hv : nid ∈ st.visited
    · rw [if_pos hv]
      exact ih st
    · rw [if_neg hv]
      cases hfind : assocFind nodes nid with
      | none =>
        dsimp only
        refine le_trans (ih _) ?_
        have := unvisitedCount_cons_le nodes st.visited nid
        simp only [slMeasure]
        omega
      | some node =>
        dsimp only
        have hmemm : nid ∈ nodes.map Prod.fst := by
          cases hfind' : nodes.find? (fun p => decide (p.1 = nid)) with
          | none => simp [assocFind, hfind'] at hfind
          | some q =>
            have hq : q.1 = nid := by
              have := List.find?_some hfind'
              simpa using this
            have hqmem : q ∈ nodes := List.mem_of_find?_eq_some hfind'
            exact hq ▸ List.mem_map_of_mem Prod.fst hqmem
        have hlt := unvisitedCount_cons_lt nodes st.visited nid hmemm hv
        by_cases hcond : st.results.length < ef ∨ dist query node.vector < rootDistance st.results
        · rw [if_pos hcond]
          refine le_trans (ih _) ?_
          simp only [slMeasure, candPushMin_length]
          omega
        · rw [if_neg hcond]
          refine le_trans (ih _) ?_
          simp only [slMeasure]
          omega

/-- Outer loop of `searchLayer`: pop the closest candidate, stop when it
cannot improve a full results heap, explore its neighbors at the current
level, and return the results heap when the candidates run out. -/
def slLoop (dist : List Rat → List Rat → Rat) (nodes : List (Nat × SNode)) (query : List Rat)
    (ef level : Nat) (st : SLState) : List Cand :=
  match hc : st.cands with
  | [] => st.results
  | current :: restCands =>
    if st.results.length > 0 ∧ current.distance > rootDistance st.results ∧
        st.results.length ≥ ef then
      st.results
    else
      let st1 : SLState := ⟨st.visited, restCands, st.results⟩
      match assocFind nodes current.id with
      | none => slLoop dist nodes query ef level st1
      | some node =>
        if level ≥ node.neighbors.length then
          slLoop dist nodes query ef level st1
        else
          slLoop dist nodes query ef level
            (slNeighbors dist nodes query ef (node.neighbors.getD level []) st1)
termination_by slMeasure nodes st
decreasing_by
  all_goals try refine lt_of_le_of_lt (slNeighbors_measure dist nodes query ef _ _) ?_
  all_goals simp only [slMeasure, hc, List.length_cons]
  all_goals omega

/-- Greedy search at one layer (`HNSWWrapper.searchLayer`): empty result
when the entry node is missing, otherwise run the loop seeded with the
entry node and return the results sorted by ascending distance (the
back-to-front heap drain of the source). -/
def searchLayer (dist : List Rat → List Rat → Rat) (g : SGraph) (query : List Rat)
    (entryID ef level : Nat) : List Cand :=
  match assocFind g.nodes entryID with
  | none => []
  | some entryNode =>
    let entryDist := dist query entryNode.vector
    (slLoop dist g.nodes query ef level
      ⟨[entryID], [⟨entryID, entryDist⟩], [⟨entryID, entryDist⟩]⟩).reverse

/-- The greedy descent of `HNSWWrapper.Search` from the top level down
to level 1, with candidate-list width 1. -/
def searchDescend (dist : List Rat → List Rat → Rat) (g : SGraph) (query : List Rat) :
    Nat → Nat → Nat
  | 0, ep => ep
  | l + 1, ep =>
    let cands := searchLayer dist g query ep 1 (l + 1)
    searchDescend dist g query l (match cands with | [] => ep | c :: _ => c.id)

/-- One search result (`storage.HNSWSearchResult`). -/
structure SRes where
  id : Nat
  distance : Rat
deriving DecidableEq

/-- Result collection loop of `HNSWWrapper.Search`: walk the layer-0
candidates in order, skip ids outside the filter, and stop once the
collected list has reached `k` entries (checked after each append, as in
the source). -/
def collectTopK (hasFilter : Bool) (filterIDs : List Nat) (k : Nat) :
    List Cand → List SRes → List SRes
  | [], acc => acc.reverse
  | c :: rest, acc =>
    if hasFilter && decide (c.id ∉ filterIDs) then
      collectTopK hasFilter filterIDs k rest acc
    else
      let acc' := (⟨c.id, c.distance⟩ : SRes) :: acc
      if acc'.length ≥ k then acc'.reverse
      else collectTopK hasFilter filterIDs k rest acc'

/-- ANN search (`HNSWWrapper.Search`): dimension check, empty result on
an empty graph, widened candidate width under a filter, greedy descent
to level 0, layer-0 search with width `max searchK efSearch`, and
result collection. -/
def hnswSearch (dist : List Rat → List Rat → Rat) (g : SGraph) (query : List Rat) (k : Nat)
    (filter : Option (List Nat)) : Except String (List SRes) :=
  if query.length ≠ g.dimensions then
    throw "query dimension mismatch"
  else if !g.hasEntry then
    pure []
  else
    let hasFilter := match filter with | none => false | some f => !f.isEmpty
    let searchK :=
      if hasFilter then
        if k * 10 > g.nodes.length then g.nodes.length else k * 10
      else k
    let ep := searchDescend dist g query g.maxLevel g.entryPoint
    let candidates := searchLayer dist g query ep (max searchK g.efSearch) 0
    pure (collectTopK hasFilter (filter.getD []) k candidates [])

/-- A concrete one-node search graph (id 1, vector `[0]`, no neighbors,
dimension 1, efSearch 100) used to instantiate the search statements. -/
def c8Graph : SGraph :=
  ⟨[(1, ⟨[0], []⟩)], 1, true, 1, 0, 100⟩

/-! ## Association list lemmas -/

theorem assocFind_assocPut_self {α β : Type} [DecidableEq α] (l : List (α × β)) (k : α) (v : β) :
    assocFind (assocPut l k v) k = some v := by
  induction l with
  | nil => simp [assocPut, assocFind, List.find?]
  | cons p rest ih =>
    by_cases hp : p.1 = k
    · simp [assocPut, hp, assocFind, List.find?]
    · simp only [assocPut]
      rw [if_neg hp]
      simpa [assocFind, List.find?, hp] using ih

theorem assocFind_assocRemove_self {α β : Type} [DecidableEq α] (l : List (α × β)) (k : α) :
    assocFind (assocRemove l k) k = none := by
  unfold assocFind
  have hfind : (assocRemove l k).find? (fun p => decide (p.1 = k)) = none := by
    rw [List.find?_eq_none]
    intro p hp
    have hmem : p ∈ l ∧ ¬p.1 = k := by simpa [assocRemove] using hp
    simpa using hmem.2
  rw [hfind]
  rfl

theorem assocFind_eq_none_of_forall {α β : Type} [DecidableEq α] (l : List (α × β)) (k : α)
    (h : ∀ p ∈ l, p.1 ≠ k) : assocFind l k = none := by
  unfold assocFind
  have hfind : l.find? (fun p => decide (p.1 = k)) = none := by
    rw [List.find?_eq_none]
    intro p hp
    simpa using h p hp
  rw [hfind]
  rfl

theorem assocPut_eq_append_of_find_none {α β : Type} [DecidableEq α] (l : List (α × β))
    (k : α) (v : β) (h : assocFind l k = none) : assocPut l k v = l ++ [(k, v)] := by
  induction l with
  | nil => rfl
  | cons p rest ih =>
    by_cases hp : p.1 = k
    · exfalso
      simp [assocFind, List.find?, hp] at h
    · simp only [assocPut]
      rw [if_neg hp]
      have h' : assocFind rest k = none := by
        simpa [assocFind, List.find?, hp] using h
      simp [ih h']

theorem assocFind_isSome_mem_keys {α β : Type} [DecidableEq α] (l : List (α × β)) (k : α)
    (h : (assocFind l k).isSome) : k ∈ l.map Prod.fst := by
  cases hf : l.find? (fun p => decide (p.1 = k)) with
  | none => simp [assocFind, hf] at h
  | some q =>
    have hq : q.1 = k := by simpa using List.find?_some hf
    exact hq ▸ List.mem_map_of_mem Prod.fst (List.mem_of_find?_eq_some hf)

/-! ## Theorems for the shard-routing claim -/

/-- C6: for every key, the shard assignment computed by the code equals
`BigEndianU32(BLAKE3(key)[0..4]) mod N` with the fixed `N = 16` written
in the spec, the partition count constant is 16, and the assignment is
deterministic: it depends only on the key, not on the manager state. -/
theorem c6_shard_assignment (m : Manager) (key : List Nat) :
    managerGetBucketID m key = shardAssignSpec key ∧
    PartitionCount = 16 ∧
    ∀ m' : Manager, managerGetBucketID m' key = managerGetBucketID m key :=
  ⟨rfl, rfl, fun _ => rfl⟩

set_option maxRecDepth 100000 in
/-- Known-answer check: the embedded BLAKE3 digest of the empty input is
the published test vector
`af1349b9f5f9a1a6a0404dea36dcc9499bcb25c9adc112b7cc9a93cae41f3262`. -/
theorem blake3_empty_known_answer :
    blake3Hash [] =
      [0xaf, 0x13, 0x49, 0xb9, 0xf5, 0xf9, 0xa1, 0xa6, 0xa0, 0x40, 0x4d, 0xea,
       0x36, 0xdc, 0xc9, 0x49, 0x9b, 0xcb, 0x25, 0xc9, 0xad, 0xc1, 0x12, 0xb7,
       0xcc, 0x9a, 0x93, 0xca, 0xe4, 0x1f, 0x32, 0x62] := by
  have h1 : chunkBlocks [] = [[]] := by
    rw [chunkBlocks.eq_def]
    norm_num
  have h2 : b3Subtree [] 0 = chunkOutput 0 [] := by
    rw [b3Subtree.eq_def]
    norm_num
  unfold blake3Hash
  rw [h2]
  unfold chunkOutput
  rw [h1]
  decide

/-! ## Theorems for the shard-log append range check -/

/-- C9: shard-log append fails with the input-range error exactly when
the key is empty or longer than 1 KiB (1024 bytes); for keys within
range that error is never produced. -/
theorem c9_append_key_range (compress : List Nat → List Nat) (m : Manager)
    (key payload : List Nat) :
    managerAppend compress m key payload = Except.error StorageErr.invalidKeyLength ↔
      (key.length = 0 ∨ key.length > 1024) := by
  constructor
  · intro h
    by_contra hk
    rw [managerAppend, if_neg hk] at h
    by_cases hc : (compress payload).length ≥ 2 ^ 31 - 1
    · rw [if_pos hc] at h
      exact StorageErr.noConfusion (Except.error.inj h)
    · rw [if_neg hc] at h
      exact Except.noConfusion h
  · intro h
    rw [managerAppend, if_pos h]
    rfl

/-! ## Theorems for the WAL-failure atomicity claim -/

/-- C4: within one `append_block`, a WAL write/fsync failure makes the
operation return an error with the collection map and the shard log
exactly as before: the WAL step precedes every collection and shard-log
state change. -/
theorem c4_wal_failure_atomic (compress : List Nat → List Nat) (vm : VMState)
    (collection key : List Nat) (block : BlockData) :
    (∃ e, (vmAppendBlock compress false vm collection key block).1 = Except.error e) ∧
    (vmAppendBlock compress false vm collection key block).2.colls = vm.colls ∧
    (vmAppendBlock compress false vm collection key block).2.mgr = vm.mgr := by
  cases h : assocFind vm.colls collection with
  | none => exact ⟨⟨"collection not found", by simp [vmAppendBlock, h]⟩, by simp [vmAppendBlock, h],
      by simp [vmAppendBlock, h]⟩
  | some coll =>
    exact ⟨⟨"WAL logging failed", by simp [vmAppendBlock, h]⟩, by simp [vmAppendBlock, h],
      by simp [vmAppendBlock, h]⟩

/-! ## Destructuring lemmas for the collection operations -/

theorem hnswAdd_ok (h : HnswNodes) (id : Nat) (v : List Rat) (h₂ : HnswNodes)
    (hok : hnswAdd h id v = Except.ok h₂) :
    v.length = h.dimensions ∧ assocFind h.nodes id = none ∧
      h₂ = ⟨h.nodes ++ [(id, v)], h.dimensions⟩ := by
  unfold hnswAdd at hok
  by_cases h1 : v.length ≠ h.dimensions
  · rw [if_pos h1] at hok
    exact Except.noConfusion hok
  · rw [if_neg h1] at hok
    by_cases h2 : (assocFind h.nodes id).isSome
    · rw [if_pos h2] at hok
      exact Except.noConfusion hok
    · rw [if_neg h2] at hok
      refine ⟨by omega, Option.not_isSome_iff_eq_none.mp h2, ?_⟩
      exact (Except.ok.inj hok).symm

theorem collAppendBlock_error_state (c : Collection) (key : List Nat) (block : BlockData)
    (e : String) (h : (collAppendBlock c key block).1 = Except.error e) :
    (collAppendBlock c key block).2 = c := by
  cases hres : (if block.vector ≠ [] then
      hnswAdd c.hnsw (getNextVectorID c.docMap) block.vector else pure c.hnsw) with
  | error e' => simp [collAppendBlock, hres]
  | ok hnsw' =>
    exfalso
    simp [collAppendBlock, hres] at h

theorem collAppendBlock_ok_spec (c : Collection) (key : List Nat) (block : BlockData) (r : Nat)
    (h : (collAppendBlock c key block).1 = Except.ok r) :
    ∃ hnsw',
      (if block.vector ≠ [] then hnswAdd c.hnsw (getNextVectorID c.docMap) block.vector
       else pure c.hnsw) = Except.ok hnsw' ∧
      r = assocFindD c.keyLengths key 0 ∧
      (collAppendBlock c key block).2 =
        ⟨c.dims, hnsw',
         if block.keywords ≠ [] then invAdd c.inv block.keywords (getNextVectorID c.docMap)
         else c.inv,
         assocPut c.docMap (getNextVectorID c.docMap) ⟨key, r⟩,
         assocPut c.keyLengths key ((r + 1) % 2 ^ 32),
         assocPut c.keyIndex key (assocFindD c.keyIndex key [] ++ [getNextVectorID c.docMap])⟩ := by
  cases hres : (if block.vector ≠ [] then
      hnswAdd c.hnsw (getNextVectorID c.docMap) block.vector else pure c.hnsw) with
  | error e' =>
    exfalso
    simp [collAppendBlock, hres] at h
  | ok hnsw' =>
    have hr : r = assocFindD c.keyLengths key 0 := by
      have h' := h
      simp [collAppendBlock, hres] at h'
      exact h'.symm
    refine ⟨hnsw', rfl, hr, ?_⟩
    simp [collAppendBlock, hres, hr]

theorem collDeleteKey_ok_parts (c : Collection) (key : List Nat) (u : Unit) (c' : Collection)
    (h : collDeleteKey c key = (Except.ok u, c')) :
    c'.keyLengths = assocRemove c.keyLengths key ∧
    c'.keyIndex = assocRemove c.keyIndex key := by
  cases hki : assocFind c.keyIndex key with
  | none =>
    exfalso
    simp [collDeleteKey, hki] at h
  | some ids =>
    simp only [collDeleteKey, hki] at h
    have hsnd := congrArg Prod.snd h
    simp only at hsnd
    rw [← hsnd]
    exact ⟨rfl, rfl⟩

/-! ## Theorems for the append-block contract claim -/

/-- C7: a successful `append_block` returns the key's current block
count as the block index (`uint32` counter), mints the id
`forward.next_vector_id()`, touches HNSW exactly when the block carries
a vector, records `(key, block_index)` in the forward index under the
minted id, and increments the key's length by exactly one (in `uint32`
arithmetic, hence literally by one whenever the counter does not wrap). -/
theorem c7_append_block (c : Collection) (key : List Nat) (block : BlockData) (r : Nat)
    (h : (collAppendBlock c key block).1 = Except.ok r) :
    r = assocFindD c.keyLengths key 0 ∧
    (block.vector ≠ [] →
      (collAppendBlock c key block).2.hnsw.nodes =
        c.hnsw.nodes ++ [(getNextVectorID c.docMap, block.vector)]) ∧
    (block.vector = [] → (collAppendBlock c key block).2.hnsw = c.hnsw) ∧
    assocFind (collAppendBlock c key block).2.docMap (getNextVectorID c.docMap) =
      some ⟨key, r⟩ ∧
    assocFindD (collAppendBlock c key block).2.keyLengths key 0 =
      (assocFindD c.keyLengths key 0 + 1) % 2 ^ 32 ∧
    (assocFindD c.keyLengths key 0 + 1 < 2 ^ 32 →
      assocFindD (collAppendBlock c key block).2.keyLengths key 0 =
        assocFindD c.keyLengths key 0 + 1) := by
  obtain ⟨hnsw', hres, hr, hstate⟩ := collAppendBlock_ok_spec c key block r h
  have hput : assocFindD (assocPut c.keyLengths key ((r + 1) % 2 ^ 32)) key 0 =
      (r + 1) % 2 ^ 32 := by
    unfold assocFindD
    rw [assocFind_assocPut_self]
    rfl
  refine ⟨hr, ?_, ?_, ?_, ?_, ?_⟩
  · intro hv
    rw [if_pos hv] at hres
    obtain ⟨-, -, hshape⟩ := hnswAdd_ok _ _ _ _ hres
    rw [hstate, hshape]
  · intro hv
    rw [if_neg (by simp [hv])] at hres
    rw [hstate]
    exact (Except.ok.inj hres).symm
  · rw [hstate]
    exact assocFind_assocPut_self _ _ _
  · rw [hstate]
    simp only
    rw [hput, hr]
  · intro hlt
    rw [hstate]
    simp only
    rw [hput, hr]
    omega

/-- C7 witness: appending one block with a correctly sized vector to a
fresh two-dimensional collection succeeds with block index 0 and records
the minted id in the forward index. -/
theorem c7_append_block_witness :
    (collAppendBlock (collInit 2) [97] ⟨[104], [1, 2], []⟩).1 = Except.ok 0 ∧
    assocFind (collAppendBlock (collInit 2) [97] ⟨[104], [1, 2], []⟩).2.docMap
      (getNextVectorID (collInit 2).docMap) = some ⟨[97], 0⟩ :=
  ⟨rfl, (c7_append_block (collInit 2) [97] ⟨[104], [1, 2], []⟩ 0 rfl).2.2.2.1⟩

/-! ## Theorems for the delete-key frame-effect claim -/

/-- C10: after a successful vector-manager `delete_key`, the shard
manager is untouched, so `GetLength` still reports the pre-delete value
for every key, yet `get_block` fails with the not-found error at every
index because the collection's key table is consulted first. -/
theorem c10_delete_key_frame (decompress : List Nat → Except String (List Nat)) (vm : VMState)
    (collection key : List Nat)
    (h : (vmDeleteKey true vm collection key).1 = Except.ok ()) :
    (vmDeleteKey true vm collection key).2.mgr = vm.mgr ∧
    (∀ k', managerGetLength (vmDeleteKey true vm collection key).2.mgr k' =
      managerGetLength vm.mgr k') ∧
    (∀ i, vmGetBlock decompress (vmDeleteKey true vm collection key).2 collection key i =
      Except.error "key not found") := by
  cases hc : assocFind vm.colls collection with
  | none =>
    exfalso
    simp [vmDeleteKey, hc] at h
  | some coll =>
    cases hd : collDeleteKey coll key with
    | mk res coll' =>
      cases res with
      | error e =>
        exfalso
        simp [vmDeleteKey, hc, hd] at h
      | ok u =>
        have hstate : (vmDeleteKey true vm collection key).2 =
            ⟨vm.mgr, assocPut vm.colls collection coll',
             vm.wal ++ [⟨2, collection, key, 0, [], [], []⟩]⟩ := by
          simp [vmDeleteKey, hc, hd]
        refine ⟨by rw [hstate], fun k' => by rw [hstate], fun i => ?_⟩
        rw [hstate]
        have hkl := (collDeleteKey_ok_parts coll key u coll' hd).1
        have hcont : collContainsKey coll' key = false := by
          unfold collContainsKey
          rw [hkl, assocFind_assocRemove_self]
          rfl
        simp [vmGetBlock, assocFind_assocPut_self, hcont]
        rfl

/-- C10 witness: a state with one collection holding one key; deleting
the key succeeds, leaves the shard manager untouched, and makes
`get_block` fail with not-found. -/
theorem c10_delete_key_frame_witness :
    (vmDeleteKey true
      ⟨managerInit, [([99], ⟨2, ⟨[], 2⟩, [], [(1, ⟨[107], 0⟩)], [([107], 1)], [([107], [1])]⟩)], []⟩
      [99] [107]).1 = Except.ok () ∧
    (vmDeleteKey true
      ⟨managerInit, [([99], ⟨2, ⟨[], 2⟩, [], [(1, ⟨[107], 0⟩)], [([107], 1)], [([107], [1])]⟩)], []⟩
      [99] [107]).2.mgr = managerInit ∧
    vmGetBlock (fun b => Except.ok b)
      (vmDeleteKey true
        ⟨managerInit, [([99], ⟨2, ⟨[], 2⟩, [], [(1, ⟨[107], 0⟩)], [([107], 1)], [([107], [1])]⟩)], []⟩
        [99] [107]).2 [99] [107] 0 = Except.error "key not found" :=
  ⟨rfl,
   (c10_delete_key_frame (fun b => Except.ok b)
     ⟨managerInit, [([99], ⟨2, ⟨[], 2⟩, [], [(1, ⟨[107], 0⟩)], [([107], 1)], [([107], [1])]⟩)], []⟩
     [99] [107] rfl).1,
   (c10_delete_key_frame (fun b => Except.ok b)
     ⟨managerInit, [([99], ⟨2, ⟨[], 2⟩, [], [(1, ⟨[107], 0⟩)], [([107], 1)], [([107], [1])]⟩)], []⟩
     [99] [107] rfl).2.2 0⟩

/-! ## Theorems for the vector-id claim -/

theorem forwardFold_acc_le (fi : ForwardMap) (acc : Nat) :
    acc ≤ fi.foldl (fun maxID p => if p.1 > maxID then p.1 else maxID) acc := by
  induction fi generalizing acc with
  | nil => simp
  | cons q rest ih =>
    simp only [List.foldl_cons]
    refine le_trans ?_ (ih _)
    split <;> omega

theorem forwardFold_mem_le (fi : ForwardMap) (acc : Nat) (p : Nat × DocLocation) (hp : p ∈ fi) :
    p.1 ≤ fi.foldl (fun maxID q => if q.1 > maxID then q.1 else maxID) acc := by
  induction fi generalizing acc with
  | nil => cases hp
  | cons q rest ih =>
    rcases List.mem_cons.mp hp with h | h
    · subst h
      simp only [List.foldl_cons]
      refine le_trans ?_ (forwardFold_acc_le rest _)
      split <;> omega
    · simp only [List.foldl_cons]
      exact ih _ h

theorem forwardMaxId_mem_le (fi : ForwardMap) (p : Nat × DocLocation) (hp : p ∈ fi) :
    p.1 ≤ forwardMaxId fi :=
  forwardFold_mem_le fi 0 p hp

theorem forwardMaxId_append (fi : ForwardMap) (x : Nat × DocLocation) :
    forwardMaxId (fi ++ [x]) = max (forwardMaxId fi) x.1 := by
  unfold forwardMaxId
  rw [List.foldl_append]
  simp only [List.foldl_cons, List.foldl_nil]
  split <;> omega

theorem minted_from_strict_mono (ops : List ColOp) (c : Collection)
    (happ : ∀ op ∈ ops, op.isAppendOp = true)
    (hbound : forwardMaxId c.docMap + ops.length < 2 ^ 64) :
    (∀ x ∈ (collMintedFrom c ops).filterMap id, forwardMaxId c.docMap < x) ∧
    List.Pairwise (fun a b => a < b) ((collMintedFrom c ops).filterMap id) := by
  induction ops generalizing c with
  | nil => simp [collMintedFrom]
  | cons op rest ih =>
    have happ' : ∀ o ∈ rest, o.isAppendOp = true :=
      fun o ho => happ o (List.mem_cons_of_mem _ ho)
    obtain ⟨key, block, rfl⟩ : ∃ key block, op = ColOp.append key block := by
      have hop := happ op (List.mem_cons_self _ _)
      cases op with
      | append k b => exact ⟨k, b, rfl⟩
      | delete k => simp [ColOp.isAppendOp] at hop
    rw [List.length_cons] at hbound
    simp only [collMintedFrom, collStep]
    cases hres : (collAppendBlock c key block).1 with
    | error e =>
      rw [collAppendBlock_error_state c key block e hres]
      have hih := ih c happ' (by omega)
      simpa using hih
    | ok ridx =>
      have hM1 : getNextVectorID c.docMap = forwardMaxId c.docMap + 1 := by
        unfold getNextVectorID
        have : forwardMaxId c.docMap + 1 < 2 ^ 64 := by omega
        omega
      obtain ⟨hnsw', hres', hr, hstate⟩ := collAppendBlock_ok_spec c key block ridx hres
      have hnotmem : assocFind c.docMap (getNextVectorID c.docMap) = none := by
        apply assocFind_eq_none_of_forall
        intro p hp
        have := forwardMaxId_mem_le c.docMap p hp
        omega
      have hdocMap : (collAppendBlock c key block).2.docMap =
          c.docMap ++ [(getNextVectorID c.docMap, ⟨key, ridx⟩)] := by
        rw [hstate]
        exact assocPut_eq_append_of_find_none _ _ _ hnotmem
      have hM' : forwardMaxId (collAppendBlock c key block).2.docMap =
          forwardMaxId c.docMap + 1 := by
        rw [hdocMap, forwardMaxId_append, hM1]
        omega
      have hih := ih ((collAppendBlock c key block).2) happ' (by rw [hM']; omega)
      simp only [List.filterMap_cons, id_eq]
      constructor
      · intro x hx
        rcases List.mem_cons.mp hx with h | h
        · omega
        · have := hih.1 x h
          omega
      · refine List.Pairwise.cons ?_ hih.2
        intro x hx
        have := hih.1 x hx
        omega

/-- C1 counterexample: with the operation sequence append, delete the
same key, append again, the forward index is empty again after the
delete, so `GetNextVectorID` mints the same id 1 twice; the ids minted
in the collection's life are not pairwise distinct, refuting the claim
that a minted id is distinct from every id minted earlier. -/
theorem c1_id_reuse_counterexample :
    collMintedTrace 4
      [ColOp.append [97] ⟨[1], [], []⟩, ColOp.delete [97], ColOp.append [98] ⟨[2], [], []⟩] =
      [some 1, none, some 1] ∧
    ¬ List.Pairwise (fun a b => a ≠ b)
      ((collMintedTrace 4
        [ColOp.append [97] ⟨[1], [], []⟩, ColOp.delete [97],
         ColOp.append [98] ⟨[2], [], []⟩]).filterMap id) := by
  constructor
  · rfl
  · decide

/-- C1 amended: as long as no `delete_key` occurs, the ids minted by the
successful appends of a run (each `current-max + 1` over the forward
index, in `uint64` arithmetic) are strictly increasing, hence pairwise
distinct; a delete of the key holding the maximum id allows the id to be
minted again (see the counterexample). -/
theorem c1_monotonic_append_only (dims : Nat) (ops : List ColOp)
    (happ : ∀ op ∈ ops, op.isAppendOp = true)
    (hlen : ops.length < 2 ^ 64) :
    List.Pairwise (fun a b => a < b) ((collMintedTrace dims ops).filterMap id) := by
  have h := minted_from_strict_mono ops (collInit dims) happ
    (by simp [collInit, forwardMaxId]; omega)
  exact h.2

/-- C1 witness: two appends to the same key mint the strictly increasing
ids 1 and 2. -/
theorem c1_monotonic_append_only_witness :
    (∀ op ∈ ([ColOp.append [97] ⟨[1], [], []⟩, ColOp.append [97] ⟨[2], [], []⟩] : List ColOp),
      op.isAppendOp = true) ∧
    ([ColOp.append [97] ⟨[1], [], []⟩, ColOp.append [97] ⟨[2], [], []⟩] : List ColOp).length <
      2 ^ 64 ∧
    List.Pairwise (fun a b => a < b)
      ((collMintedTrace 4
        [ColOp.append [97] ⟨[1], [], []⟩, ColOp.append [97] ⟨[2], [], []⟩]).filterMap id) := by
  refine ⟨?_, by norm_num, ?_⟩
  · intro op hop
    rcases List.mem_cons.mp hop with rfl | hop'
    · rfl
    · rcases List.mem_cons.mp hop' with rfl | hop''
      · rfl
      · cases hop''
  · apply c1_monotonic_append_only
    · intro op hop
      rcases List.mem_cons.mp hop with rfl | hop'
      · rfl
      · rcases List.mem_cons.mp hop' with rfl | hop''
        · rfl
        · cases hop''
    · norm_num

/-! ## Theorems for the count/forward-index claim -/

theorem assocFind_none_not_mem_keys {α β : Type} [DecidableEq α] (l : List (α × β)) (k : α)
    (h : assocFind l k = none) : k ∉ l.map Prod.fst := by
  intro hk
  obtain ⟨p, hp, hpk⟩ := List.mem_map.mp hk
  have hfind : l.find? (fun q => decide (q.1 = k)) = none := by
    cases hf : l.find? (fun q => decide (q.1 = k)) with
    | none => rfl
    | some q => simp [assocFind, hf] at h
  have := List.find?_eq_none.mp hfind p hp
  simp [hpk] at this

theorem hnswAdd_nodup (h : HnswNodes) (nid : Nat) (v : List Rat) (h₂ : HnswNodes)
    (hok : hnswAdd h nid v = Except.ok h₂) (hnd : (h.nodes.map Prod.fst).Nodup) :
    (h₂.nodes.map Prod.fst).Nodup := by
  obtain ⟨-, hfind, hshape⟩ := hnswAdd_ok h nid v h₂ hok
  rw [hshape]
  simp only [List.map_append, List.map_cons, List.map_nil]
  rw [List.nodup_append]
  refine ⟨hnd, List.nodup_singleton nid, ?_⟩
  intro a ha hb
  have hb' : a = nid := by simpa using hb
  rw [hb'] at ha
  exact assocFind_none_not_mem_keys h.nodes nid hfind ha

theorem hnswDeleteOrKeep_nodup (h : HnswNodes) (nid : Nat)
    (hnd : (h.nodes.map Prod.fst).Nodup) :
    (((match hnswDelete h nid with | .ok h' => h' | .error _ => h).nodes.map Prod.fst)).Nodup := by
  unfold hnswDelete
  by_cases hc : (assocFind h.nodes nid).isSome
  · rw [if_pos hc]
    refine List.Nodup.sublist ?_ hnd
    exact List.Sublist.map Prod.fst (List.filter_sublist h.nodes)
  · rw [if_neg hc]
    exact hnd

theorem foldDelete_nodup (ids : List Nat) (h : HnswNodes)
    (hnd : (h.nodes.map Prod.fst).Nodup) :
    (((ids.foldl (fun h id => match hnswDelete h id with | .ok h' => h' | .error _ => h) h)
      |>.nodes.map Prod.fst)).Nodup := by
  induction ids generalizing h with
  | nil => exact hnd
  | cons id rest ih =>
    simp only [List.foldl_cons]
    exact ih _ (hnswDeleteOrKeep_nodup h id hnd)

theorem collStep_hnsw_nodup (c : Collection) (op : ColOp)
    (hnd : (c.hnsw.nodes.map Prod.fst).Nodup) :
    (((collStep c op).hnsw.nodes.map Prod.fst)).Nodup := by
  cases op with
  | append key block =>
    simp only [collStep]
    cases hres : (collAppendBlock c key block).1 with
    | error e =>
      rw [collAppendBlock_error_state _ _ _ _ hres]
      exact hnd
    | ok r =>
      obtain ⟨hnsw', hres', hr, hstate⟩ := collAppendBlock_ok_spec _ _ _ _ hres
      rw [hstate]
      by_cases hv : block.vector ≠ []
      · rw [if_pos hv] at hres'
        exact hnswAdd_nodup _ _ _ _ hres' hnd
      · rw [if_neg hv] at hres'
        have heq : c.hnsw = hnsw' := Except.ok.inj hres'
        dsimp only
        rw [← heq]
        exact hnd
  | delete key =>
    simp only [collStep]
    unfold collDeleteKey
    cases hki : assocFind c.keyIndex key with
    | none => exact hnd
    | some ids =>
      dsimp only
      exact foldDelete_nodup ids c.hnsw hnd

theorem collRun_hnsw_nodup (dims : Nat) (ops : List ColOp) :
    (((collRun dims ops).hnsw.nodes.map Prod.fst)).Nodup := by
  suffices h : ∀ c : Collection, (c.hnsw.nodes.map Prod.fst).Nodup →
      ((ops.foldl collStep c).hnsw.nodes.map Prod.fst).Nodup by
    exact h (collInit dims) (by simp [collInit])
  induction ops with
  | nil => exact fun c hc => hc
  | cons op rest ih => exact fun c hc => ih _ (collStep_hnsw_nodup c op hc)

theorem length_filter_isSome_add_isNone {α β : Type} (f : α → Option β) (l : List α) :
    (l.filter (fun x => (f x).isSome)).length + (l.filter (fun x => (f x).isNone)).length =
      l.length := by
  induction l with
  | nil => rfl
  | cons x rest ih =>
    cases hf : f x <;> simp [List.filter_cons, hf] <;> omega

theorem hnsw_minus_orphans_le_forward (c : Collection)
    (hnd : (c.hnsw.nodes.map Prod.fst).Nodup) :
    hnswNodeCount c.hnsw - orphanCount c ≤ forwardCount c.docMap := by
  have hsplit : (c.hnsw.nodes.filter (fun p => (assocFind c.docMap p.1).isSome)).length +
      orphanCount c = hnswNodeCount c.hnsw := by
    unfold orphanCount hnswNodeCount
    exact length_filter_isSome_add_isNone (fun p => assocFind c.docMap p.1) c.hnsw.nodes
  have hndf : (((c.hnsw.nodes.filter (fun p => (assocFind c.docMap p.1).isSome)).map
      Prod.fst)).Nodup :=
    List.Nodup.sublist (List.Sublist.map Prod.fst (List.filter_sublist _)) hnd
  have hsub : ((c.hnsw.nodes.filter (fun p => (assocFind c.docMap p.1).isSome)).map Prod.fst) ⊆
      c.docMap.map Prod.fst := by
    intro x hx
    obtain ⟨p, hp, rfl⟩ := List.mem_map.mp hx
    have hpf := (List.mem_filter.mp hp).2
    exact assocFind_isSome_mem_keys _ _ (by simpa using hpf)
  have hle := (List.Nodup.subperm hndf hsub).length_le
  rw [List.length_map, List.length_map] at hle
  unfold forwardCount
  omega

/-- C3 counterexample: one append whose block has an empty vector is a
reachable state where `count` (the HNSW node count in the code) is 0
while the forward index holds 1 entry, refuting
`count(C) = |forward(C)|`. -/
theorem c3_count_counterexample :
    collCount (collRun 4 [ColOp.append [97] ⟨[1], [], []⟩]) = 0 ∧
    forwardCount (collRun 4 [ColOp.append [97] ⟨[1], [], []⟩]).docMap = 1 ∧
    collCount (collRun 4 [ColOp.append [97] ⟨[1], [], []⟩]) ≠
      forwardCount (collRun 4 [ColOp.append [97] ⟨[1], [], []⟩]).docMap := by
  refine ⟨rfl, rfl, ?_⟩
  decide

/-- C3 amended: in every reachable state, `count(C)` equals the number
of ids in the HNSW graph (not the forward-index size, which can be
larger after empty-vector appends), and the forward-index size is at
least the HNSW id count minus the orphans reported by the repair pass. -/
theorem c3_count_hnsw_bound (dims : Nat) (ops : List ColOp) :
    collCount (collRun dims ops) = hnswNodeCount (collRun dims ops).hnsw ∧
    hnswNodeCount (collRun dims ops).hnsw - orphanCount (collRun dims ops) ≤
      forwardCount (collRun dims ops).docMap :=
  ⟨rfl, hnsw_minus_orphans_le_forward _ (collRun_hnsw_nodup dims ops)⟩

/-! ## Theorems for the entry codec round-trip claim -/

theorem crc32Shift_lt (c : Nat) (hc : c < 2 ^ 32) : crc32Shift c < 2 ^ 32 := by
  unfold crc32Shift
  split
  · exact Nat.xor_lt_two_pow (by omega) (by norm_num)
  · omega

theorem crc32Update_lt (crc b : Nat) (h : crc < 2 ^ 32) : crc32Update crc b < 2 ^ 32 := by
  unfold crc32Update
  simp only [Function.comp_apply]
  have h0 : crc ^^^ b % 256 < 2 ^ 32 := Nat.xor_lt_two_pow h (by omega)
  exact crc32Shift_lt _ (crc32Shift_lt _ (crc32Shift_lt _ (crc32Shift_lt _
    (crc32Shift_lt _ (crc32Shift_lt _ (crc32Shift_lt _ (crc32Shift_lt _ h0)))))))

theorem crc32IEEE_lt (data : List Nat) : crc32IEEE data < 2 ^ 32 := by
  unfold crc32IEEE
  have hfold : ∀ (l : List Nat) (acc : Nat), acc < 2 ^ 32 →
      l.foldl crc32Update acc < 2 ^ 32 := by
    intro l
    induction l with
    | nil => exact fun acc h => h
    | cons b rest ih =>
      intro acc h
      exact ih _ (crc32Update_lt acc b h)
  exact Nat.xor_lt_two_pow (hfold data 0xFFFFFFFF (by norm_num)) (by norm_num)

theorem validKeyword_parts (kw : List Nat) (h : validKeyword kw = true) :
    kw ≠ [] ∧ kw.length ≤ 128 := by
  simp only [validKeyword, Bool.and_eq_true, Bool.not_eq_true', List.isEmpty_eq_false,
    decide_eq_true_eq] at h
  exact ⟨h.1.1, h.1.2⟩

theorem encodeKeywordStep_ok (acc kw : List Nat)
    (hvk : validKeyword (normalizeKeyword kw) = true) :
    encodeKeywordStep acc kw =
      Except.ok (acc ++ (normalizeKeyword kw).length :: normalizeKeyword kw) := by
  have hlen := (validKeyword_parts _ hvk).2
  unfold encodeKeywordStep
  have h255 : ¬(normalizeKeyword kw).length > 255 := by omega
  simp [hvk, h255]
  rfl

theorem encodeKeywords_fold (kws : List (List Nat)) (acc : List Nat)
    (hv : ∀ kw ∈ kws, validKeyword (normalizeKeyword kw) = true) :
    kws.foldlM encodeKeywordStep acc =
      (Except.ok (acc ++ kwBody kws) : Except String (List Nat)) := by
  induction kws generalizing acc with
  | nil =>
    simp [kwBody]
    rfl
  | cons kw rest ih =>
    have hvk := hv kw (List.mem_cons_self _ _)
    rw [List.foldlM_cons, encodeKeywordStep_ok acc kw hvk]
    have hrest := ih (acc ++ (normalizeKeyword kw).length :: normalizeKeyword kw)
      (fun k hk => hv k (List.mem_cons_of_mem _ hk))
    simp only [kwBody, List.flatMap_cons]
    calc (Except.ok (acc ++ (normalizeKeyword kw).length :: normalizeKeyword kw) >>=
            fun a => rest.foldlM encodeKeywordStep a) =
        rest.foldlM encodeKeywordStep
          (acc ++ (normalizeKeyword kw).length :: normalizeKeyword kw) := rfl
      _ = Except.ok ((acc ++ (normalizeKeyword kw).length :: normalizeKeyword kw) ++
            kwBody rest) := hrest
      _ = Except.ok (acc ++ (((normalizeKeyword kw).length :: normalizeKeyword kw) ++
            kwBody rest)) := by
          rw [List.append_assoc]

theorem encodeKeywords_ok (kws : List (List Nat))
    (hv : ∀ kw ∈ kws, validKeyword (normalizeKeyword kw) = true)
    (hcount : kws.length ≤ 65535)
    (hblock : 2 + (kwBody kws).length ≤ 65535) :
    encodeKeywords kws = Except.ok (u16BE kws.length ++ kwBody kws) := by
  unfold encodeKeywords
  rw [if_neg (by omega), encodeKeywords_fold kws [] hv]
  simp only [List.nil_append]
  rw [if_neg (by simp [u16BE]; omega)]
  rfl

theorem readU16BE_u16BE (n : Nat) (h : n < 2 ^ 16) :
    readU16BE (n / 2 ^ 8 % 256) (n % 256) = n := by
  unfold readU16BE
  omega

theorem readU32BE_u32BE (n : Nat) (h : n < 2 ^ 32) : readU32BE (u32BE n) = n := by
  show n / 2 ^ 24 % 256 * 2 ^ 24 + n / 2 ^ 16 % 256 * 2 ^ 16 + n / 2 ^ 8 % 256 * 2 ^ 8 +
    n % 256 = n
  omega

theorem decodeKeywordsLoop_kwBody (kws : List (List Nat)) (acc : List (List Nat))
    (hv : ∀ kw ∈ kws, validKeyword (normalizeKeyword kw) = true) :
    decodeKeywordsLoop kws.length (kwBody kws) acc =
      Except.ok (acc.reverse ++ kws.map normalizeKeyword) := by
  induction kws generalizing acc with
  | nil =>
    show (Except.ok acc.reverse : Except String (List (List Nat))) =
      Except.ok (acc.reverse ++ [])
    rw [List.append_nil]
  | cons kw rest ih =>
    have hvk := hv kw (List.mem_cons_self _ _)
    have hne : normalizeKeyword kw ≠ [] := (validKeyword_parts _ hvk).1
    have hkb : kwBody (kw :: rest) =
        (normalizeKeyword kw).length :: (normalizeKeyword kw ++ kwBody rest) := by
      simp [kwBody]
    have hgr : goRead (normalizeKeyword kw).length (normalizeKeyword kw ++ kwBody rest) =
        Except.ok (normalizeKeyword kw, kwBody rest) := by
      have hdne : ¬(normalizeKeyword kw ++ kwBody rest).isEmpty = true := by
        simp [List.isEmpty_iff, hne]
      unfold goRead
      rw [if_neg]
      · rw [List.take_left, List.drop_left]
        have h0 : (normalizeKeyword kw).length -
            (normalizeKeyword kw ++ kwBody rest).length = 0 := by
          rw [List.length_append]
          omega
        rw [h0, List.replicate_zero, List.append_nil]
        rfl
      · simp [hdne]
    rw [List.length_cons, hkb]
    simp only [decodeKeywordsLoop, hgr]
    rw [ih (normalizeKeyword kw :: acc) (fun k hk => hv k (List.mem_cons_of_mem _ hk))]
    simp

theorem decodeKeywords_roundtrip (kws : List (List Nat))
    (hv : ∀ kw ∈ kws, validKeyword (normalizeKeyword kw) = true)
    (hcount : kws.length < 2 ^ 16) :
    decodeKeywords (u16BE kws.length ++ kwBody kws) =
      Except.ok (kws.map normalizeKeyword) := by
  unfold decodeKeywords
  have hshort : ¬(u16BE kws.length ++ kwBody kws).length < 2 := by
    simp only [List.length_append, u16BE, List.length_cons, List.length_nil]
    omega
  rw [if_neg hshort]
  have h0 : (u16BE kws.length ++ kwBody kws).getD 0 0 = kws.length / 2 ^ 8 % 256 := rfl
  have h1 : (u16BE kws.length ++ kwBody kws).getD 1 0 = kws.length % 256 := rfl
  have h2 : (u16BE kws.length ++ kwBody kws).drop 2 = kwBody kws := rfl
  rw [h0, h1, h2, readU16BE_u16BE kws.length hcount, decodeKeywordsLoop_kwBody kws [] hv]
  simp

theorem parseFlags_encodeFlags (f : EntryFlags) (h : f.dataType < 8) :
    parseFlags (encodeFlags f) = f := by
  rcases f with ⟨dt, c, t⟩
  simp only at h
  cases c <;> cases t <;>
    simp [encodeFlags, parseFlags, EntryFlags.mk.injEq, decide_eq_false_iff_not,
      decide_eq_true_eq] <;>
    omega

theorem entryHead_length (e : Entry) : (entryHead e).length = 14 := rfl

theorem entryOut_length (e : Entry) :
    (entryOut e).length = 18 + e.key.length + ((kwBody e.keywords).length + 2) +
      e.primaryData.length + e.secondaryData.length := by
  simp [entryOut, entryHead, entryBody, u16BE, u32BE]
  omega

theorem entryOut_take14 (e : Entry) : (entryOut e).take 14 = entryHead e := rfl

theorem entryOut_drop18 (e : Entry) : (entryOut e).drop 18 = entryBody e := rfl

theorem entryOut_crc_slice (e : Entry) :
    ((entryOut e).drop 14).take 4 = u32BE (crc32IEEE (entryPre e)) := rfl

theorem entryOut_copy (e : Entry) :
    (entryOut e).take 14 ++ [0, 0, 0, 0] ++ (entryOut e).drop 18 = entryPre e := rfl

theorem encodeEntry_ok (e : Entry)
    (hkey : e.key.length ≤ 65535)
    (hv : ∀ kw ∈ e.keywords, validKeyword (normalizeKeyword kw) = true)
    (hcount : e.keywords.length ≤ 65535)
    (hblock : 2 + (kwBody e.keywords).length ≤ 65535) :
    encodeEntry e = Except.ok (entryOut e) := by
  unfold encodeEntry
  rw [encodeKeywords_ok e.keywords hv hcount hblock]
  have hk : ¬e.key.length > MaxKeyLength := by
    simp only [MaxKeyLength]
    omega
  simp only [hk, ite_false, if_false]
  rfl

theorem decodeEntryHeader_entryOut (e : Entry)
    (hkey : e.key.length < 2 ^ 16) (hkw : (kwBody e.keywords).length + 2 < 2 ^ 16)
    (hp : e.primaryData.length < 2 ^ 32) (hs : e.secondaryData.length < 2 ^ 32) :
    decodeEntryHeader (entryOut e) = Except.ok
      { headerSize := CurrentHeaderSize
        flags := encodeFlags e.flags
        keyLen := e.key.length
        primaryLen := e.primaryData.length
        secondaryLen := e.secondaryData.length
        kwLen := (kwBody e.keywords).length + 2
        crc32 := crc32IEEE (entryPre e) } := by
  have hlen := entryOut_length e
  unfold decodeEntryHeader
  have hshort : ¬(entryOut e).length < CurrentHeaderSize := by
    simp only [CurrentHeaderSize]
    omega
  have g0 : (entryOut e).getD 0 0 = 18 := rfl
  have hhs : ¬(entryOut e).getD 0 0 > (entryOut e).length := by
    rw [g0]
    omega
  rw [if_neg hshort, if_neg hhs]
  have g2 : (entryOut e).getD 2 0 = e.key.length / 2 ^ 8 % 256 := rfl
  have g3 : (entryOut e).getD 3 0 = e.key.length % 256 := rfl
  have g12 : (entryOut e).getD 12 0 = ((kwBody e.keywords).length + 2) / 2 ^ 8 % 256 := rfl
  have g13 : (entryOut e).getD 13 0 = ((kwBody e.keywords).length + 2) % 256 := rfl
  have s4 : ((entryOut e).drop 4).take 4 = u32BE e.primaryData.length := rfl
  have s8 : ((entryOut e).drop 8).take 4 = u32BE e.secondaryData.length := rfl
  rw [g2, g3, g12, g13, s4, s8, entryOut_crc_slice,
    readU16BE_u16BE e.key.length hkey, readU16BE_u16BE _ hkw,
    readU32BE_u32BE _ hp, readU32BE_u32BE _ hs,
    readU32BE_u32BE _ (crc32IEEE_lt (entryPre e))]
  rfl

theorem drop_split (l : List Nat) (m n : Nat) : l.drop (m + n) = (l.drop m).drop n := by
  rw [List.drop_drop]

theorem entryOut_key_slice (e : Entry) :
    ((entryOut e).drop 18).take e.key.length = e.key := by
  rw [entryOut_drop18]
  simp only [entryBody, List.append_assoc]
  rw [List.take_left]

theorem entryOut_drop_keyEnd (e : Entry) :
    (entryOut e).drop (18 + e.key.length) =
      (u16BE e.keywords.length ++ kwBody e.keywords) ++
        (e.primaryData ++ e.secondaryData) := by
  rw [drop_split, entryOut_drop18]
  simp only [entryBody, List.append_assoc]
  rw [List.drop_left]

theorem kwBytes_length (kws : List (List Nat)) :
    (u16BE kws.length ++ kwBody kws).length = (kwBody kws).length + 2 := by
  simp [u16BE]

theorem entryOut_kw_slice (e : Entry) :
    ((entryOut e).drop (18 + e.key.length)).take ((kwBody e.keywords).length + 2) =
      u16BE e.keywords.length ++ kwBody e.keywords := by
  rw [entryOut_drop_keyEnd]
  exact List.take_left' (kwBytes_length e.keywords)

theorem entryOut_primary_slice (e : Entry) :
    ((entryOut e).drop (18 + e.key.length + ((kwBody e.keywords).length + 2))).take
      e.primaryData.length = e.primaryData := by
  rw [drop_split, entryOut_drop_keyEnd,
    List.drop_left' (kwBytes_length e.keywords), List.take_left]

theorem entryOut_secondary_slice (e : Entry) :
    ((entryOut e).drop
        (18 + e.key.length + ((kwBody e.keywords).length + 2) + e.primaryData.length)).take
      e.secondaryData.length = e.secondaryData := by
  rw [drop_split, drop_split, entryOut_drop_keyEnd,
    List.drop_left' (kwBytes_length e.keywords), List.drop_left, List.take_length]

theorem decodeEntry_entryOut (e : Entry)
    (hdt : e.flags.dataType < 8)
    (hkey : e.key.length < 2 ^ 16)
    (hv : ∀ kw ∈ e.keywords, validKeyword (normalizeKeyword kw) = true)
    (hcount : e.keywords.length < 2 ^ 16)
    (hkw : (kwBody e.keywords).length + 2 < 2 ^ 16)
    (hp : e.primaryData.length < 2 ^ 32)
    (hs : e.secondaryData.length < 2 ^ 32) :
    decodeEntry (entryOut e) = Except.ok
      { flags := e.flags, key := e.key,
        keywords := e.keywords.map normalizeKeyword,
        primaryData := e.primaryData, secondaryData := e.secondaryData } := by
  have hlen := entryOut_length e
  unfold decodeEntry
  rw [decodeEntryHeader_entryOut e hkey hkw hp hs]
  simp only [entryOut_copy, ne_eq, not_true_eq_false, ite_false, if_false,
    CurrentHeaderSize]
  rw [if_neg (by omega)]
  rw [entryOut_kw_slice, decodeKeywords_roundtrip e.keywords hv hcount]
  simp only [entryOut_key_slice, entryOut_primary_slice, entryOut_secondary_slice,
    parseFlags_encodeFlags e.flags hdt]
  rfl

/-- C5: for every well-formed entry (keywords whose normalizations pass
`ValidateKeyword`, key at most 65535 bytes, keyword count and keyword
block within their `uint16` limits, primary/secondary lengths within
`uint32`, data type within its 3-bit field), `EncodeEntry` succeeds, the
four bytes stored at offset 14 of the output are the CRC-32/IEEE of the
whole record with the CRC field zeroed, and `DecodeEntry` of the output
returns the entry exactly, except that each keyword is replaced by its
lowercase normalization. -/
theorem c5_entry_roundtrip (e : Entry)
    (hdt : e.flags.dataType < 8)
    (hkey : e.key.length ≤ 65535)
    (hv : ∀ kw ∈ e.keywords, validKeyword (normalizeKeyword kw) = true)
    (hcount : e.keywords.length ≤ 65535)
    (hblock : 2 + (kwBody e.keywords).length ≤ 65535)
    (hp : e.primaryData.length < 2 ^ 32)
    (hs : e.secondaryData.length < 2 ^ 32) :
    ∃ out, encodeEntry e = Except.ok out ∧
      (out.drop 14).take 4 =
        u32BE (crc32IEEE (out.take 14 ++ [0, 0, 0, 0] ++ out.drop 18)) ∧
      decodeEntry out = Except.ok
        { flags := e.flags, key := e.key,
          keywords := e.keywords.map normalizeKeyword,
          primaryData := e.primaryData, secondaryData := e.secondaryData } := by
  refine ⟨entryOut e, encodeEntry_ok e hkey hv hcount hblock, ?_, ?_⟩
  · rw [entryOut_crc_slice, entryOut_copy]
  · exact decodeEntry_entryOut e hdt (by omega) hv (by omega) (by omega) hp hs

/-- C5 witness: the round-trip at a concrete entry with key `"k"`,
keyword `"A"` (normalized to `"a"`), one primary and one secondary
byte. -/
theorem c5_entry_roundtrip_witness :
    ∃ out, encodeEntry ⟨⟨1, false, false⟩, [107], [[65]], [5], [6]⟩ = Except.ok out ∧
      (out.drop 14).take 4 =
        u32BE (crc32IEEE (out.take 14 ++ [0, 0, 0, 0] ++ out.drop 18)) ∧
      decodeEntry out = Except.ok
        { flags := ⟨1, false, false⟩, key := [107],
          keywords := [[65]].map normalizeKeyword,
          primaryData := [5], secondaryData := [6] } :=
  c5_entry_roundtrip ⟨⟨1, false, false⟩, [107], [[65]], [5], [6]⟩ (by decide) (by decide)
    (by decide) (by decide) (by decide) (by decide) (by decide)

/-! ## Theorems for the HNSW persistence claim -/

theorem readU32LE_u32LE (n : Nat) (h : n < 2 ^ 32) : readU32LE (u32LE n) = n := by
  show n % 256 + n / 2 ^ 8 % 256 * 2 ^ 8 + n / 2 ^ 16 % 256 * 2 ^ 16 +
    n / 2 ^ 24 % 256 * 2 ^ 24 = n
  omega

theorem readU64LE_u64LE (n : Nat) (h : n < 2 ^ 64) : readU64LE (u64LE n) = n := by
  show n % 256 + n / 2 ^ 8 % 256 * 2 ^ 8 + n / 2 ^ 16 % 256 * 2 ^ 16 +
    n / 2 ^ 24 % 256 * 2 ^ 24 + n / 2 ^ 32 % 256 * 2 ^ 32 + n / 2 ^ 40 % 256 * 2 ^ 40 +
    n / 2 ^ 48 % 256 * 2 ^ 48 + n / 2 ^ 56 % 256 * 2 ^ 56 = n
  omega

theorem byteToMetric_metricToByte (mt : Metric) : byteToMetric (metricToByte mt) = mt := by
  cases mt <;> rfl

theorem sum_map_const {α : Type} (l : List α) (f : α → Nat) (c : Nat)
    (h : ∀ x ∈ l, f x = c) : (l.map f).sum = l.length * c := by
  induction l with
  | nil => simp
  | cons a as ih =>
    simp only [List.map_cons, List.sum_cons, h a (List.mem_cons_self _ _),
      ih (fun x hx => h x (List.mem_cons_of_mem _ hx)), List.length_cons]
    ring

theorem savedNodeIDs_length (g : HWGraph) : (savedNodeIDs g).length = g.nodes.length := by
  rw [savedNodeIDs, (List.perm_insertionSort _ _).length_eq, List.length_map]

theorem hnswNodeRows_length (g : HWGraph) (ids : List Nat) (i nOff : Nat) :
    (hnswNodeRows g ids i nOff).length = ids.length * 24 := by
  induction ids generalizing i nOff with
  | nil => rfl
  | cons id rest ih =>
    simp only [hnswNodeRows, List.length_append, u64LE, u32LE, List.length_cons,
      List.length_nil, ih, List.length_cons]
    omega

theorem hnswNodeTable_length (g : HWGraph) :
    (hnswNodeTable g).length = g.nodes.length * 24 := by
  rw [hnswNodeTable, hnswNodeRows_length, savedNodeIDs_length]

theorem assocFind_mem_of_mem_keys {α β : Type} [DecidableEq α] (l : List (α × β)) (k : α)
    (h : k ∈ l.map Prod.fst) : ∃ v, assocFind l k = some v ∧ (k, v) ∈ l := by
  induction l with
  | nil => simp at h
  | cons p rest ih =>
    obtain ⟨a, b⟩ := p
    by_cases hp : a = k
    · subst hp
      exact ⟨b, by simp [assocFind], List.mem_cons_self _ _⟩
    · have hp' : ¬k = a := fun hh => hp hh.symm
      have h' : k ∈ rest.map Prod.fst := by
        simpa [hp'] using h
      obtain ⟨v, hfind, hmem⟩ := ih h'
      refine ⟨v, ?_, List.mem_cons_of_mem _ hmem⟩
      rw [assocFind, List.find?_cons_of_neg _ (by simp [hp])]
      exact hfind

theorem hwNodeLookup_vector_length (g : HWGraph)
    (hvec : ∀ p ∈ g.nodes, p.2.vector.length = g.dimensions)
    (id : Nat) (hid : id ∈ g.nodes.map Prod.fst) :
    (hwNodeLookup g id).vector.length = g.dimensions := by
  obtain ⟨v, hfind, hmem⟩ := assocFind_mem_of_mem_keys g.nodes id hid
  rw [hwNodeLookup, hfind]
  exact hvec (id, v) hmem

theorem hnswVectorSection_length (g : HWGraph)
    (hvec : ∀ p ∈ g.nodes, p.2.vector.length = g.dimensions) :
    (hnswVectorSection g).length = g.nodes.length * (g.dimensions * 4) := by
  rw [hnswVectorSection, List.length_flatMap]
  have hsave : ∀ id ∈ savedNodeIDs g,
      ((hwNodeLookup g id).vector.flatMap u32LE).length = g.dimensions * 4 := by
    intro id hid
    have hid' : id ∈ g.nodes.map Prod.fst :=
      (List.perm_insertionSort _ _).mem_iff.mp hid
    rw [List.length_flatMap, sum_map_const _ (List.length ∘ u32LE) 4 (fun x _ => rfl),
      hwNodeLookup_vector_length g hvec id hid']
  rw [sum_map_const _ (List.length ∘ fun id => (hwNodeLookup g id).vector.flatMap u32LE)
    (g.dimensions * 4) hsave, savedNodeIDs_length]

set_option maxHeartbeats 1000000 in
theorem hnswLoadCheck_saveBytes (g : HWGraph) (hdim : g.dimensions < 2 ^ 32)
    (d : Nat) (m : Metric) :
    hnswLoadCheck (hnswSaveBytes g) d m = Except.ok () ↔
      d = g.dimensions ∧ m = g.metric := by
  have h1 : (hnswHeader g).length = 64 := rfl
  have hlen : ¬(hnswSaveBytes g).length < 64 := by
    simp only [hnswSaveBytes, List.length_append, h1]
    omega
  have hmag : (hnswSaveBytes g).take 8 = hnswMagicBytes := rfl
  unfold hnswLoadCheck
  rw [if_neg hlen, if_neg (by simp [hmag])]
  have hdread : readU32LE (((hnswSaveBytes g).drop 8).take 4) = g.dimensions :=
    readU32LE_u32LE g.dimensions hdim
  have hmbyte : (hnswSaveBytes g).getD 12 0 = metricToByte g.metric := rfl
  simp only [hdread, hmbyte, byteToMetric_metricToByte]
  constructor
  · intro h
    by_cases hd : g.dimensions = d
    · by_cases hm2 : g.metric = m
      · exact ⟨hd.symm, hm2.symm⟩
      · rw [if_neg (fun hc => hc hd), if_pos hm2] at h
        exact absurd h (by simp)
    · rw [if_pos hd] at h
      exact absurd h (by simp)
  · rintro ⟨rfl, rfl⟩
    rw [if_neg (fun hc => hc rfl), if_neg (fun hc => hc rfl)]
    rfl

set_option maxHeartbeats 1000000 in
/-- C2: the binary `vectors.hnsw` format. For every graph whose node ids
are distinct, whose vectors all have the declared dimension and whose
numeric fields are within their fixed widths: the header is exactly 64
bytes and is the first 64 bytes of the file, the file starts with the
magic `HNSWV001`, the dimensions, node count, entry point, max level and
`M` are stored little-endian at offsets 8, 16, 20, 28 and 32, the metric
and has-entry bytes sit at offsets 12 and 36, the node table is 24 bytes
per node, the neighbor section starts right after the header, node table
and vector section, the ids written are exactly the graph's ids in
strictly ascending order, and `Load`'s header validation accepts the
saved file iff the declared dimensions and metric both match (and fails
with the wrong-magic format error on any file whose first 8 bytes are
not the magic). -/
theorem c2_hnsw_save_format (g : HWGraph)
    (hnodup : (g.nodes.map Prod.fst).Nodup)
    (hvec : ∀ p ∈ g.nodes, p.2.vector.length = g.dimensions)
    (hdim : g.dimensions < 2 ^ 32)
    (hcnt : g.nodes.length < 2 ^ 32)
    (hep : g.entryPoint < 2 ^ 64)
    (hml : g.maxLevel < 2 ^ 32)
    (hm : g.mParam < 2 ^ 32) :
    (hnswHeader g).length = 64 ∧
    (hnswSaveBytes g).take 64 = hnswHeader g ∧
    (hnswSaveBytes g).take 8 = hnswMagicBytes ∧
    readU32LE (((hnswSaveBytes g).drop 8).take 4) = g.dimensions ∧
    (hnswSaveBytes g).getD 12 0 = metricToByte g.metric ∧
    readU32LE (((hnswSaveBytes g).drop 16).take 4) = g.nodes.length ∧
    readU64LE (((hnswSaveBytes g).drop 20).take 8) = g.entryPoint ∧
    readU32LE (((hnswSaveBytes g).drop 28).take 4) = g.maxLevel ∧
    readU32LE (((hnswSaveBytes g).drop 32).take 4) = g.mParam ∧
    (hnswSaveBytes g).getD 36 0 = (if g.hasEntry then 1 else 0) ∧
    (hnswNodeTable g).length = g.nodes.length * 24 ∧
    (hnswSaveBytes g).drop (neighborSectionBase g) = hnswNeighborSection g ∧
    (savedNodeIDs g).Perm (g.nodes.map Prod.fst) ∧
    List.Sorted (· < ·) (savedNodeIDs g) ∧
    (∀ d m, hnswLoadCheck (hnswSaveBytes g) d m = Except.ok () ↔
      d = g.dimensions ∧ m = g.metric) ∧
    (∀ data d m, 64 ≤ data.length → data.take 8 ≠ hnswMagicBytes →
      hnswLoadCheck data d m = Except.error "invalid HNSW file: wrong magic number") := by
  have h1 : (hnswHeader g).length = 64 := rfl
  have h2 := hnswNodeTable_length g
  have h3 := hnswVectorSection_length g hvec
  refine ⟨h1, ?_, rfl, readU32LE_u32LE _ hdim, rfl, readU32LE_u32LE _ hcnt,
    readU64LE_u64LE _ hep, readU32LE_u32LE _ hml, readU32LE_u32LE _ hm, rfl, h2,
    ?_, List.perm_insertionSort _ _,
    List.Sorted.lt_of_le (List.sorted_insertionSort _ _)
      ((List.perm_insertionSort _ _).nodup_iff.mpr hnodup),
    hnswLoadCheck_saveBytes g hdim, ?_⟩
  · simp only [hnswSaveBytes, List.append_assoc]
    exact List.take_left' h1
  · show (hnswHeader g ++ hnswNodeTable g ++ hnswVectorSection g ++
      hnswNeighborSection g).drop
        (64 + g.nodes.length * 24 + g.nodes.length * (g.dimensions * 4)) =
      hnswNeighborSection g
    simp only [List.append_assoc]
    rw [drop_split, drop_split, List.drop_left' h1, List.drop_left' h2,
      List.drop_left' h3]
  · intro data d m hlen64 hmagbad
    unfold hnswLoadCheck
    rw [if_neg (by omega), if_pos hmagbad]
    rfl

set_option maxHeartbeats 1000000 in
/-- C2 witness: the persistence facts at the concrete one-node graph. -/
theorem c2_hnsw_save_format_witness :
    (hnswHeader c2Graph).length = 64 ∧
    (hnswSaveBytes c2Graph).take 64 = hnswHeader c2Graph ∧
    (hnswSaveBytes c2Graph).take 8 = hnswMagicBytes ∧
    readU32LE (((hnswSaveBytes c2Graph).drop 8).take 4) = c2Graph.dimensions ∧
    (hnswSaveBytes c2Graph).getD 12 0 = metricToByte c2Graph.metric ∧
    readU32LE (((hnswSaveBytes c2Graph).drop 16).take 4) = c2Graph.nodes.length ∧
    readU64LE (((hnswSaveBytes c2Graph).drop 20).take 8) = c2Graph.entryPoint ∧
    readU32LE (((hnswSaveBytes c2Graph).drop 28).take 4) = c2Graph.maxLevel ∧
    readU32LE (((hnswSaveBytes c2Graph).drop 32).take 4) = c2Graph.mParam ∧
    (hnswSaveBytes c2Graph).getD 36 0 = (if c2Graph.hasEntry then 1 else 0) ∧
    (hnswNodeTable c2Graph).length = c2Graph.nodes.length * 24 ∧
    (hnswSaveBytes c2Graph).drop (neighborSectionBase c2Graph) =
      hnswNeighborSection c2Graph ∧
    (savedNodeIDs c2Graph).Perm (c2Graph.nodes.map Prod.fst) ∧
    List.Sorted (· < ·) (savedNodeIDs c2Graph) ∧
    (∀ d m, hnswLoadCheck (hnswSaveBytes c2Graph) d m = Except.ok () ↔
      d = c2Graph.dimensions ∧ m = c2Graph.metric) ∧
    (∀ data d m, 64 ≤ data.length → data.take 8 ≠ hnswMagicBytes →
      hnswLoadCheck data d m = Except.error "invalid HNSW file: wrong magic number") :=
  c2_hnsw_save_format c2Graph (by decide) (by decide) (by decide) (by decide) (by decide)
    (by decide) (by decide)

/-! ## Theorems for the search claim -/

theorem mem_candPushMax (c y : Cand) (l : List Cand) :
    y ∈ candPushMax c l ↔ y = c ∨ y ∈ l := by
  induction l with
  | nil => simp [candPushMax]
  | cons d ds ih =>
    rw [candPushMax]
    split
    · simp
      try tauto
    · simp [ih]
      try tauto

theorem pairwise_tail {α : Type} {R : α → α → Prop} {l : List α} (h : l.Pairwise R) :
    l.tail.Pairwise R := by
  cases l with
  | nil => simp
  | cons a as => exact (List.pairwise_cons.mp h).2

theorem candPushMax_pairwise (c : Cand) (l : List Cand)
    (h : l.Pairwise (fun a b => b.distance ≤ a.distance)) :
    (candPushMax c l).Pairwise (fun a b => b.distance ≤ a.distance) := by
  induction l with
  | nil => simp [candPushMax]
  | cons d ds ih =>
    rw [candPushMax]
    obtain ⟨hd, hds⟩ := List.pairwise_cons.mp h
    by_cases hc : d.distance ≤ c.distance
    · rw [if_pos hc]
      refine List.pairwise_cons.mpr ⟨?_, h⟩
      intro y hy
      rcases List.mem_cons.mp hy with rfl | hy'
      · exact hc
      · exact le_trans (hd y hy') hc
    · rw [if_neg hc]
      refine List.pairwise_cons.mpr ⟨?_, ih hds⟩
      intro y hy
      rcases (mem_candPushMax c y ds).mp hy with rfl | hy'
      · exact le_of_lt (lt_of_not_le hc)
      · exact hd y hy'

theorem slNeighbors_results_sorted (dist : List Rat → List Rat → Rat)
    (nodes : List (Nat × SNode)) (query : List Rat) (ef : Nat) (nbrs : List Nat)
    (st : SLState) (h : st.results.Pairwise (fun a b => b.distance ≤ a.distance)) :
    (slNeighbors dist nodes query ef nbrs st).results.Pairwise
      (fun a b => b.distance ≤ a.distance) := by
  induction nbrs generalizing st with
  | nil => simpa [slNeighbors] using h
  | cons nid rest ih =>
    simp only [slNeighbors]
    by_cases hv : nid ∈ st.visited
    · rw [if_pos hv]
      exact ih st h
    · rw [if_neg hv]
      cases hfind : assocFind nodes nid with
      | none =>
        dsimp only
        exact ih _ h
      | some node =>
        dsimp only
        by_cases hcond : st.results.length < ef ∨
            dist query node.vector < rootDistance st.results
        · rw [if_pos hcond]
          apply ih
          have h2 := candPushMax_pairwise ⟨nid, dist query node.vector⟩ st.results h
          dsimp only
          split
          · exact pairwise_tail h2
          · exact h2
        · rw [if_neg hcond]
          exact ih _ h

theorem slLoop_nil_cands (dist : List Rat → List Rat → Rat) (nodes : List (Nat × SNode))
    (query : List Rat) (ef level : Nat) (visited : List Nat) (results : List Cand) :
    slLoop dist nodes query ef level ⟨visited, [], results⟩ = results := by
  rw [slLoop.eq_def]

theorem slLoop_results_sorted (dist : List Rat → List Rat → Rat)
    (nodes : List (Nat × SNode)) (query : List Rat) (ef level : Nat) :
    ∀ (n : Nat) (st : SLState), slMeasure nodes st = n →
      st.results.Pairwise (fun a b => b.distance ≤ a.distance) →
      (slLoop dist nodes query ef level st).Pairwise
        (fun a b => b.distance ≤ a.distance) := by
  intro n
  induction n using Nat.strong_induction_on with
  | _ n ih =>
    intro st hn hst
    obtain ⟨visited, cands, results⟩ := st
    rw [slLoop.eq_def]
    cases cands with
    | nil => exact hst
    | cons current restCands =>
      dsimp only
      by_cases hstop : 0 < results.length ∧ rootDistance results < current.distance ∧
          ef ≤ results.length
      · rw [if_pos hstop]
        exact hst
      · rw [if_neg hstop]
        have hlt1 : slMeasure nodes ⟨visited, restCands, results⟩ < n := by
          subst hn
          simp only [slMeasure, List.length_cons]
          omega
        cases hfind : assocFind nodes current.id with
        | none =>
          dsimp only
          exact ih _ hlt1 _ rfl hst
        | some node =>
          dsimp only
          by_cases hlev : level ≥ node.neighbors.length
          · rw [if_pos hlev]
            exact ih _ hlt1 _ rfl hst
          · rw [if_neg hlev]
            refine ih _ ?_ _ rfl ?_
            · exact lt_of_le_of_lt
                (slNeighbors_measure dist nodes query ef (node.neighbors.getD level [])
                  ⟨visited, restCands, results⟩) hlt1
            · exact slNeighbors_results_sorted dist nodes query ef _ _ hst

theorem searchLayer_sorted (dist : List Rat → List Rat → Rat) (g : SGraph)
    (query : List Rat) (entryID ef level : Nat) :
    (searchLayer dist g query entryID ef level).Pairwise
      (fun a b => a.distance ≤ b.distance) := by
  unfold searchLayer
  cases hfind : assocFind g.nodes entryID with
  | none => simp
  | some entryNode =>
    dsimp only
    rw [List.pairwise_reverse]
    exact slLoop_results_sorted dist g.nodes query ef level _ _ rfl
      (List.pairwise_singleton _ _)

theorem collectTopK_length_le (hasF : Bool) (f : List Nat) (k : Nat) :
    ∀ (cands : List Cand) (acc : List SRes), acc.length < k →
      (collectTopK hasF f k cands acc).length ≤ k := by
  intro cands
  induction cands with
  | nil =>
    intro acc hacc
    simp only [collectTopK, List.length_reverse]
    omega
  | cons c rest ih =>
    intro acc hacc
    rw [collectTopK]
    by_cases hskip : hasF && decide (c.id ∉ f)
    · rw [if_pos hskip]
      exact ih acc hacc
    · rw [if_neg hskip]
      dsimp only
      by_cases hfull : ((⟨c.id, c.distance⟩ : SRes) :: acc).length ≥ k
      · rw [if_pos hfull]
        simp only [List.length_reverse, List.length_cons]
        omega
      · rw [if_neg hfull]
        refine ih _ ?_
        simp only [List.length_cons] at hfull ⊢
        omega

theorem collectTopK_length_zero (hasF : Bool) (f : List Nat) :
    ∀ (cands : List Cand) (acc : List SRes),
      (collectTopK hasF f 0 cands acc).length ≤ acc.length + 1 := by
  intro cands
  induction cands with
  | nil =>
    intro acc
    simp only [collectTopK, List.length_reverse]
    omega
  | cons c rest ih =>
    intro acc
    rw [collectTopK]
    by_cases hskip : hasF && decide (c.id ∉ f)
    · rw [if_pos hskip]
      exact le_trans (ih acc) (by omega)
    · rw [if_neg hskip]
      dsimp only
      rw [if_pos (Nat.zero_le _)]
      simp

theorem collectTopK_pairwise (hasF : Bool) (f : List Nat) (k : Nat) :
    ∀ (cands : List Cand) (acc : List SRes),
      cands.Pairwise (fun a b => a.distance ≤ b.distance) →
      acc.Pairwise (fun a b => b.distance ≤ a.distance) →
      (∀ s ∈ acc, ∀ c ∈ cands, s.distance ≤ c.distance) →
      (collectTopK hasF f k cands acc).Pairwise
        (fun a b => a.distance ≤ b.distance) := by
  intro cands
  induction cands with
  | nil =>
    intro acc _ ha _
    simp only [collectTopK]
    rw [List.pairwise_reverse]
    exact ha
  | cons c rest ih =>
    intro acc hc ha hx
    obtain ⟨hchead, hctail⟩ := List.pairwise_cons.mp hc
    rw [collectTopK]
    by_cases hskip : hasF && decide (c.id ∉ f)
    · rw [if_pos hskip]
      exact ih acc hctail ha (fun s hs d hd => hx s hs d (List.mem_cons_of_mem _ hd))
    · rw [if_neg hskip]
      dsimp only
      have ha' : ((⟨c.id, c.distance⟩ : SRes) :: acc).Pairwise
          (fun a b => b.distance ≤ a.distance) := by
        refine List.pairwise_cons.mpr ⟨?_, ha⟩
        intro s hs
        exact hx s hs c (List.mem_cons_self _ _)
      by_cases hfull : ((⟨c.id, c.distance⟩ : SRes) :: acc).length ≥ k
      · rw [if_pos hfull]
        rw [List.pairwise_reverse]
        exact ha'
      · rw [if_neg hfull]
        refine ih _ hctail ha' ?_
        intro s hs d hd
        rcases List.mem_cons.mp hs with rfl | hs'
        · exact hchead d hd
        · exact hx s hs' d (List.mem_cons_of_mem _ hd)

theorem distanceL2Q_single : distanceL2Q [0] [0] = 0 := by
  simp [distanceL2Q]

theorem slLoop_one_node (ef : Nat) :
    slLoop distanceL2Q [(1, ⟨[0], []⟩)] [0] ef 0 ⟨[1], [⟨1, 0⟩], [⟨1, 0⟩]⟩ = [⟨1, 0⟩] := by
  rw [slLoop.eq_def]
  simp [assocFind, rootDistance, slLoop_nil_cands]

theorem collectTopK_one (k : Nat) :
    collectTopK false [] k [⟨1, (0 : Rat)⟩] [] = [⟨1, 0⟩] := by
  by_cases hk : 1 ≥ k <;> simp [collectTopK, hk]

theorem hnswSearch_one_node (k : Nat) :
    hnswSearch distanceL2Q c8Graph [0] k none = Except.ok [⟨1, 0⟩] := by
  have hsl : searchLayer distanceL2Q ⟨[(1, ⟨[0], []⟩)], 1, true, 1, 0, 100⟩ [0] 1
      (max k 100) 0 = [⟨1, (0 : Rat)⟩] := by
    unfold searchLayer
    rw [show assocFind (⟨[(1, ⟨[0], []⟩)], 1, true, 1, 0, 100⟩ : SGraph).nodes 1 =
      some ⟨[0], []⟩ from rfl]
    dsimp only
    rw [distanceL2Q_single, slLoop_one_node (max k 100)]
    rfl
  unfold hnswSearch
  rw [if_neg (by decide), if_neg (by decide)]
  simp only [c8Graph, Bool.false_eq_true, if_false, Option.getD_none, searchDescend]
  rw [hsl, collectTopK_one k]
  rfl

/-- C8 counterexample: on the one-node graph, a search with `k = 0` and
no filter succeeds and returns one result, not at most `k = 0` results:
`Search` appends the current candidate before checking
`len(results) >= k`, so the first kept candidate is always returned. -/
theorem c8_search_k0_counterexample :
    hnswSearch distanceL2Q c8Graph [0] 0 none = Except.ok [⟨1, 0⟩] ∧
    ¬(([⟨1, (0 : Rat)⟩] : List SRes).length ≤ 0) :=
  ⟨hnswSearch_one_node 0, by simp⟩

/-- C8 amended: for every distance function, graph, query and `k`, a
successful search with an empty filter returns at most `max k 1` results
(at most `k` whenever `k ≥ 1`; one result can be returned when `k = 0`),
sorted by ascending distance. -/
theorem c8_search_sorted_bounded (dist : List Rat → List Rat → Rat) (g : SGraph)
    (query : List Rat) (k : Nat) (r : List SRes)
    (h : hnswSearch dist g query k none = Except.ok r) :
    r.length ≤ max k 1 ∧ r.Pairwise (fun a b => a.distance ≤ b.distance) := by
  unfold hnswSearch at h
  by_cases hq : query.length ≠ g.dimensions
  · rw [if_pos hq] at h
    exact absurd h (by simp)
  · rw [if_neg hq] at h
    by_cases he : (!g.hasEntry) = true
    · rw [if_pos he] at h
      have hr : r = [] := by
        have h' : (Except.ok [] : Except String (List SRes)) = Except.ok r := h
        simpa using h'.symm
      subst hr
      simp
    · rw [if_neg he] at h
      simp only [Bool.false_eq_true, if_false, Option.getD_none] at h
      have hr : r = collectTopK false [] k
          (searchLayer dist g query (searchDescend dist g query g.maxLevel g.entryPoint)
            (max k g.efSearch) 0) [] := by
        have h' := h
        simp only [pure] at h'
        exact (Except.ok.injEq _ _).mp h' |>.symm
      subst hr
      constructor
      · rcases Nat.eq_zero_or_pos k with rfl | hk
        · have hz := collectTopK_length_zero false []
            (searchLayer dist g query (searchDescend dist g query g.maxLevel g.entryPoint)
              (max 0 g.efSearch) 0) []
          simp only [List.length_nil] at hz
          omega
        · have hl := collectTopK_length_le false [] k
            (searchLayer dist g query (searchDescend dist g query g.maxLevel g.entryPoint)
              (max k g.efSearch) 0) [] (by simpa using hk)
          omega
      · exact collectTopK_pairwise false [] k _ []
          (searchLayer_sorted dist g query _ _ _) (by simp) (by simp)

/-- C8 witness: the bound and sortedness at the one-node graph with
`k = 1`. -/
theorem c8_search_sorted_bounded_witness :
    ([⟨1, (0 : Rat)⟩] : List SRes).length ≤ max 1 1 ∧
    ([⟨1, (0 : Rat)⟩] : List SRes).Pairwise (fun a b => a.distance ≤ b.distance) :=
  c8_search_sorted_bounded distanceL2Q c8Graph [0] 1 [⟨1, 0⟩] (hnswSearch_one_node 1)

end Waddle
